import Mathlib

/-!
Verification development for the per-community DAG chain store
(`python_project/backbone/datastore/chain_store.py`).

The Python class `Chain` is shallowly embedded as a pure state type
`ChainState` together with explicit state-passing functions.  Python sets
are represented as sorted duplicate-free lists, Python dicts as
association lists sorted by key, and the `cachetools.LRUCache` as a
recency-ordered association list (head = most recently used).  The
recursive traversal `__calc_terminal` is embedded with an explicit fuel
parameter; running out of fuel returns `none` (the Python original can
recurse without bound on adversarial link graphs).

Helpers imported from `datastore/utils.py` (`shorten`, `ranges`,
`expand_ranges`, `Links`, `ShortKey`) are not part of the sources under
verification; they are modelled from the specification where needed and
marked as such in their doc comments.
-/

set_option maxHeartbeats 1000000

/-- A short hash tag.  In the source this is `utils.ShortKey`, a string
holding the hex rendering of a 4-byte tag. -/
abbrev ShortKey := String

/-- A block reference: pair of sequence number and short hash. -/
abbrev BlockRef := Nat × ShortKey

/-- Lexicographic comparison of character lists by character code
(Python string comparison, restricted to the ASCII tags used here). -/
def charListLtb : List Char → List Char → Bool
  | _, [] => false
  | [], _ :: _ => true
  | c :: cs, d :: ds =>
    if c.toNat < d.toNat then true
    else if d.toNat < c.toNat then false
    else charListLtb cs ds

/-- Python `str` comparison of two short keys. -/
def strLt (a b : ShortKey) : Prop := charListLtb a.data b.data = true

instance (a b : ShortKey) : Decidable (strLt a b) :=
  inferInstanceAs (Decidable (_ = true))

/-- Lexicographic order on block references, matching Python tuple
comparison of `(int, str)` pairs. -/
def refLt (a b : BlockRef) : Prop :=
  a.1 < b.1 ∨ (a.1 = b.1 ∧ strLt a.2 b.2)

instance (a b : BlockRef) : Decidable (refLt a b) :=
  inferInstanceAs (Decidable (_ ∨ _))

/-- Insert a string into a sorted duplicate-free list (Python `set.add`
for sets of `ShortKey`). -/
def insertStr (x : ShortKey) : List ShortKey → List ShortKey
  | [] => [x]
  | y :: ys =>
    if x = y then y :: ys
    else if strLt x y then x :: y :: ys
    else y :: insertStr x ys

/-- Insert a block reference into a sorted duplicate-free list (Python
`set.add` for sets of `BlockRef`). -/
def insertRef (x : BlockRef) : List BlockRef → List BlockRef
  | [] => [x]
  | y :: ys =>
    if x = y then y :: ys
    else if refLt x y then x :: y :: ys
    else y :: insertRef x ys

/-- Canonical sorted duplicate-free rendering of a list of references
(Python `sorted` over a set). -/
def sortRefs (l : List BlockRef) : List BlockRef :=
  l.foldr insertRef []

/-- Set union for reference sets (Python `set.update`). -/
def unionRefs (acc l : List BlockRef) : List BlockRef :=
  l.foldl (fun a r => insertRef r a) acc

/-- `versions` lookup: Python `self.versions.get(seq)` / `self.versions[seq]`. -/
def versionsGet : List (Nat × List ShortKey) → Nat → Option (List ShortKey)
  | [], _ => none
  | (k, vs) :: rest, q => if q = k then some vs else versionsGet rest q

/-- `seq in self.versions`. -/
def versionsMem (m : List (Nat × List ShortKey)) (q : Nat) : Bool :=
  (versionsGet m q).isSome

/-- `self.versions[seq].add(hash)`, creating the entry when absent.  The
association list is kept sorted by key. -/
def versionsAdd : List (Nat × List ShortKey) → Nat → ShortKey → List (Nat × List ShortKey)
  | [], q, h => [(q, [h])]
  | (k, vs) :: rest, q, h =>
    if q = k then (k, insertStr h vs) :: rest
    else if q < k then (q, [h]) :: (k, vs) :: rest
    else (k, vs) :: versionsAdd rest q h

/-- `forward_pointers` lookup: Python `self.forward_pointers.get(link)`. -/
def fwdGet : List (BlockRef × List BlockRef) → BlockRef → Option (List BlockRef)
  | [], _ => none
  | (k, vs) :: rest, r => if r = k then some vs else fwdGet rest r

/-- `self.forward_pointers[(seq, hash)].add(child)`, creating an empty set
first when the key is absent (mirrors `_update_forward_pointers`). -/
def fwdAdd : List (BlockRef × List BlockRef) → BlockRef → BlockRef → List (BlockRef × List BlockRef)
  | [], k, c => [(k, [c])]
  | (a, vs) :: rest, k, c =>
    if k = a then (a, insertRef c vs) :: rest
    else if refLt k a then (k, [c]) :: (a, vs) :: rest
    else (a, vs) :: fwdAdd rest k c

/-- The terminal-closure cache: recency-ordered association list, head =
most recently used entry (models `cachetools.LRUCache`). -/
abbrev TermCache := List (BlockRef × List BlockRef)

/-- Plain association lookup in the cache, no recency update. -/
def cacheFind : TermCache → BlockRef → Option (List BlockRef)
  | [], _ => none
  | (k, vs) :: rest, r => if r = k then some vs else cacheFind rest r

/-- Remove a key from the cache. -/
def cacheRemove (c : TermCache) (k : BlockRef) : TermCache :=
  c.filter (fun e => decide (e.1 ≠ k))

/-- `self.term_cache.get(blk_link, default=None)`: a hit moves the entry
to most-recently-used position (cachetools `LRUCache.__getitem__`). -/
def lruGet (c : TermCache) (k : BlockRef) : Option (List BlockRef) × TermCache :=
  match cacheFind c k with
  | some v => (some v, (k, v) :: cacheRemove c k)
  | none => (none, c)

/-- `self.term_cache[key] = value`: replaces an existing entry (moving it
to most-recently-used position) or inserts a fresh one, evicting the
least recently used entry when the capacity is reached. -/
def lruPut (cap : Nat) (c : TermCache) (k : BlockRef) (v : List BlockRef) : TermCache :=
  if (cacheFind c k).isSome then (k, v) :: cacheRemove c k
  else if cap ≤ c.length then (k, v) :: c.dropLast
  else (k, v) :: c

/-- The mutable state of a `Chain` object (`Chain.__init__`). -/
structure ChainState where
  personal : Bool
  versions : List (Nat × List ShortKey)
  forward_pointers : List (BlockRef × List BlockRef)
  inconsistencies : List BlockRef
  holes : List Nat
  terminal : List BlockRef
  max_known_seq_num : Nat
  term_cache : TermCache
  cache_num : Nat
deriving DecidableEq, Repr

/-- The genesis short hash: the source writes `ShortKey("30303030")`, the
hex rendering of the 4 ASCII bytes `"0000"`. -/
def genesisHash : ShortKey := "30303030"

/-- The genesis reference `(0, "30303030")`. -/
def genesisRef : BlockRef := (0, genesisHash)

namespace Chain

/-- `Chain.__init__(is_personal_chain, cache_num)`. -/
def init (is_personal_chain : Bool) (cache_num : Nat) : ChainState :=
  { personal := is_personal_chain
    versions := []
    forward_pointers := []
    inconsistencies := []
    holes := []
    terminal := [genesisRef]
    max_known_seq_num := 0
    term_cache := []
    cache_num := cache_num }

/-- `Chain.get_next_link`: returns the forward set of a reference, or
`none` when the key is absent or its set is empty (Python truthiness of
`val`). -/
def get_next_link (fwd : List (BlockRef × List BlockRef)) (link : BlockRef) :
    Option (List BlockRef) :=
  match fwdGet fwd link with
  | some v => if v = [] then none else some v
  | none => none

/-- The body of the `for cached_val in cached_next` loop inside the
cache-hit branch of `__calc_terminal`, abstracted over the recursive
traversal `recur`.  It accumulates the terminal set, the threaded cache,
and the optional fresh cache entry `new_cache`. -/
def hit_step (fwd : List (BlockRef × List BlockRef))
    (recur : TermCache → List BlockRef → Option (List BlockRef × TermCache))
    (cached_next : List BlockRef)
    (acc : Option (List BlockRef × TermCache × Option (List BlockRef)))
    (c : BlockRef) : Option (List BlockRef × TermCache × Option (List BlockRef)) := do
  let (t, cch, nc) ← acc
  match get_next_link fwd c with
  | none =>
    -- this is a terminal node: `terminal.update(cached_next)`
    some (unionRefs t cached_next, cch, nc)
  | some term_next => do
    -- not terminal: make next step and invalidate the cache
    let (new_val, cch2) ← recur cch term_next
    some (unionRefs t new_val, cch2, some (unionRefs (nc.getD []) new_val))

/-- `Chain.__calc_terminal`, embedded with a fuel bound on the recursion.
Fuel is consumed at every recursive step; `none` models the unbounded
recursion the Python original runs into on cyclic link graphs (any
execution whose recursion depth fits in the fuel returns exactly the
Python result).  The traversal threads the LRU cache through every step,
since the Python method mutates `self.term_cache` mid-traversal.  The
`for cached_val in cached_next` loop of the cache-hit branch is the inner
left fold of `hit_step`. -/
def calc_terminal (cap : Nat) (fwd : List (BlockRef × List BlockRef)) :
    Nat → TermCache → List BlockRef → Option (List BlockRef × TermCache)
  | 0, _, _ => none
  | _ + 1, cache, [] => some ([], cache)
  | fuel + 1, cache, blk :: rest =>
    match get_next_link fwd blk with
    | none =>
      -- terminal node achieved: `terminal.add(blk_link)`
      (do
        let (t, c) ← calc_terminal cap fwd fuel cache rest
        some (insertRef blk t, c))
    | some next_blk =>
      match lruGet cache blk with
      | (some cached_next, c1) =>
        if cached_next = [] then
          -- an empty cached set is falsy in Python: same as a cache miss
          (do
            let (new_term, c2) ← calc_terminal cap fwd fuel c1 next_blk
            let c3 := lruPut cap c2 blk new_term
            let (t2, c4) ← calc_terminal cap fwd fuel c3 rest
            some (unionRefs new_term t2, c4))
        else
          (do
            let (t1, c2, new_cache) ← cached_next.foldl
              (hit_step fwd (fun cch cur => calc_terminal cap fwd fuel cch cur) cached_next)
              (some ([], c1, none))
            let c3 := match new_cache with
              | some nc => if nc = [] then c2 else lruPut cap c2 blk nc
              | none => c2
            let (t2, c4) ← calc_terminal cap fwd fuel c3 rest
            some (unionRefs t1 t2, c4))
      | (none, c1) =>
        -- no cache: make step and update cache
        (do
          let (new_term, c2) ← calc_terminal cap fwd fuel c1 next_blk
          let c3 := lruPut cap c2 blk new_term
          let (t2, c4) ← calc_terminal cap fwd fuel c3 rest
          some (unionRefs new_term t2, c4))
termination_by structural fuel => fuel

/-- Insert a sequence number into the sorted duplicate-free holes list
(Python `set.add` on `self.holes`). -/
def insertNat (x : Nat) : List Nat → List Nat
  | [] => [x]
  | y :: ys =>
    if x = y then y :: ys
    else if x < y then x :: y :: ys
    else y :: insertNat x ys

/-- The `while s not in self.versions and s >= 1` walk of
`_update_holes`, descending from the parent sequence number. -/
def holeWalk (versions : List (Nat × List ShortKey)) : Nat → List Nat → List Nat
  | 0, holes => holes
  | s + 1, holes =>
    if versionsMem versions (s + 1) then holes
    else holeWalk versions s (insertNat (s + 1) holes)

/-- `Chain._update_holes`. -/
def update_holes (s : ChainState) (block_seq_num : Nat) (block_links : List BlockRef) :
    ChainState :=
  let holes0 :=
    if block_seq_num ∈ s.holes
    then s.holes.filter (fun x => decide (x ≠ block_seq_num))
    else s.holes
  let holes1 := block_links.foldl
    (fun hs l => if versionsMem s.versions l.1 then hs else holeWalk s.versions l.1 hs)
    holes0
  { s with holes := holes1 }

/-- `Chain._update_inconsistencies`. -/
def update_inconsistencies (s : ChainState) (block_links : List BlockRef)
    (block_seq_num : Nat) (block_hash : ShortKey) : ChainState :=
  let inc1 := block_links.foldl
    (fun ic l =>
      match versionsGet s.versions l.1 with
      | some vs => if l.2 ∈ vs then ic else insertRef l ic
      | none => ic)
    s.inconsistencies
  let inc2 :=
    if (block_seq_num, block_hash) ∈ inc1
    then inc1.filter (fun x => decide (x ≠ (block_seq_num, block_hash)))
    else inc1
  { s with inconsistencies := inc2 }

/-- `Chain._update_forward_pointers`. -/
def update_forward_pointers (s : ChainState) (block_links : List BlockRef)
    (block_seq_num : Nat) (block_hash : ShortKey) : ChainState :=
  { s with forward_pointers :=
      (block_links.foldl (fun f l => fwdAdd f l (block_seq_num, block_hash))
        s.forward_pointers) }

/-- `Chain._update_versions`.  The Python method creates the entry, bumps
`max_known_seq_num` when the sequence number is new, then adds the hash;
`versionsAdd` performs the create-and-add in one pass. -/
def update_versions (s : ChainState) (block_seq_num : Nat) (block_hash : ShortKey) :
    ChainState :=
  let isNew := !(versionsMem s.versions block_seq_num)
  { s with
    versions := versionsAdd s.versions block_seq_num block_hash
    max_known_seq_num :=
      if isNew && decide (s.max_known_seq_num < block_seq_num)
      then block_seq_num else s.max_known_seq_num }

/-- `Chain._update_terminal`: union of the closure from the new block and
the closure from the previous terminal set, sorted. -/
def update_terminal (s : ChainState) (fuel : Nat) (block_seq_num : Nat)
    (block_short_hash : ShortKey) : Option ChainState := do
  let current := [(block_seq_num, block_short_hash)]
  let (t1, c1) ← calc_terminal s.cache_num s.forward_pointers fuel s.term_cache current
  let (t2, c2) ← calc_terminal s.cache_num s.forward_pointers fuel c1 s.terminal
  some { s with terminal := sortRefs (unionRefs t1 t2), term_cache := c2 }

end Chain

/-- The block fields `chain_store.py` consults (`PlexusBlock` itself is
defined outside the sources under verification). -/
structure PlexusBlock where
  hash : String
  previous : List BlockRef
  links : List BlockRef
  sequence_number : Nat
  com_seq_num : Nat
deriving DecidableEq, Repr

/-- Modelled from the spec: `utils.shorten` (not under src/) derives the
4-byte short tag from the block digest.  The claims depend only on it
being a deterministic function of the digest, so it is modelled as the
identity on the supplied digest string. -/
def shorten (h : String) : ShortKey := h

namespace Chain

/-- `Chain.add_block`.  Returns `none` when the terminal traversal
exceeds the fuel (the Python call would not return). -/
def add_block (fuel : Nat) (s : ChainState) (block : PlexusBlock) : Option ChainState :=
  let block_links := if s.personal then block.previous else block.links
  let block_seq_num := if s.personal then block.sequence_number else block.com_seq_num
  let block_hash := shorten block.hash
  let s1 := update_versions s block_seq_num block_hash
  let s2 := update_forward_pointers s1 block_links block_seq_num block_hash
  let s3 := update_holes s2 block_seq_num block_links
  let s4 := update_inconsistencies s3 block_links block_seq_num block_hash
  update_terminal s4 fuel block_seq_num block_hash

/-- Sequential ingestion of a list of blocks. -/
def add_all (fuel : Nat) (s : ChainState) : List PlexusBlock → Option ChainState
  | [] => some s
  | b :: bs => do add_all fuel (← add_block fuel s b) bs

end Chain

/-- The consecutive run `lo, lo+1, ..., lo+n-1`. -/
def countRange (lo : Nat) : Nat → List Nat
  | 0 => []
  | n + 1 => lo :: countRange (lo + 1) n

/-- The closed interval `[lo, hi]` as a list (empty when `hi < lo`),
matching Python `range(lo, hi + 1)`. -/
def rangeClosed (lo hi : Nat) : List Nat := countRange lo (hi + 1 - lo)

/-- Modelled from the spec: `utils.expand_ranges` (not under src/)
expands a sequence of closed `(lo, hi)` ranges into the set of covered
sequence numbers. -/
def expand_ranges : List (Nat × Nat) → List Nat
  | [] => []
  | (a, b) :: rest => rangeClosed a b ++ expand_ranges rest

/-- Helper for `ranges`: extend the current run `[lo, hi]` or emit it. -/
def rangesAux : Nat → Nat → List Nat → List (Nat × Nat)
  | lo, hi, [] => [(lo, hi)]
  | lo, hi, y :: ys =>
    if y = hi + 1 then rangesAux lo y ys else (lo, hi) :: rangesAux y y ys

/-- Modelled from the spec: `utils.ranges` (not under src/) compresses a
set of sequence numbers into canonical closed ranges, e.g.
`compress of the set 5 6 7 9 10` is `[(5,7),(9,10)]`. -/
def ranges : List Nat → List (Nat × Nat)
  | [] => []
  | x :: xs => rangesAux x x xs

/-- `Frontier` (`chain_store.py`): wire-format summary of a ChainView. -/
structure Frontier where
  terminal : List BlockRef
  holes : List (Nat × Nat)
  inconsistencies : List BlockRef
deriving DecidableEq, Repr

/-- `FrontierDiff` (`chain_store.py`). -/
structure FrontierDiff where
  missing : List (Nat × Nat)
  conflicts : List BlockRef
deriving DecidableEq, Repr

namespace Chain

/-- The `frontier` property of `Chain`. -/
def frontier (s : ChainState) : Frontier :=
  { terminal := s.terminal
    holes := ranges s.holes
    inconsistencies := sortRefs s.inconsistencies }

/-- Python `max` over a tuple of `(int, str)` pairs: lexicographic
maximum; `none` on the empty tuple (Python raises `ValueError`). -/
def maxLink : List BlockRef → Option BlockRef
  | [] => none
  | r :: rs => some (rs.foldl (fun a b => if refLt a b then b else a) r)

/-- Python `t[0] in frontier.holes` compares the integer `t[0]` with the
`(lo, hi)` tuples of the ranges list.  An `int` never equals a 2-tuple,
so each comparison is `False`. -/
def intEqRangePair (_x : Nat) (_r : Nat × Nat) : Bool := false

/-- The membership test `t[0] in frontier.holes` as Python evaluates it
on a `Ranges` value: constantly false. -/
def intMemRanges (x : Nat) (rs : List (Nat × Nat)) : Bool :=
  rs.any (intEqRangePair x)

/-- The inconsistency-escalation loop of `Chain.reconcile`: for each
locally tracked inconsistency, traverse its closure and add the
inconsistency to the conflict set when a closure element is a remote
terminal not declared inconsistent there (the remote-holes test is the
constantly-false integer-in-ranges membership of the source). -/
def escalate (cap : Nat) (fwd : List (BlockRef × List BlockRef)) (fuel : Nat)
    (front : Frontier) :
    TermCache → List BlockRef → List BlockRef → Option (List BlockRef × TermCache)
  | cache, [], conflicts => some (conflicts, cache)
  | cache, i :: rest, conflicts => do
    let (ts, c2) ← calc_terminal cap fwd fuel cache [i]
    let conflicts2 := ts.foldl
      (fun acc t =>
        if t ∈ front.terminal ∧ t ∉ front.inconsistencies ∧ intMemRanges t.1 front.holes = false
        then insertRef i acc else acc)
      conflicts
    escalate cap fwd fuel front c2 rest conflicts2

/-- `Chain.reconcile`.  Returns `none` when the remote terminal is empty
(Python `max` of an empty sequence raises) or when the escalation
traversal exceeds the fuel.  The conflict set is returned in canonical
sorted order (the source materialises a Python set). -/
def reconcile (fuel : Nat) (s : ChainState) (front : Frontier) :
    Option (FrontierDiff × ChainState) := do
  let f_holes := expand_ranges front.holes
  let mx ← maxLink front.terminal
  let max_term_seq := mx.1
  let front_known_seq := (expand_ranges [(1, max_term_seq)]).filter
    (fun x => decide (x ∉ f_holes))
  let peer_known_seq := (expand_ranges [(1, s.max_known_seq_num)]).filter
    (fun x => decide (x ∉ s.holes))
  let f_diff := front_known_seq.filter (fun x => decide (x ∉ peer_known_seq))
  let missing := ranges f_diff
  let conflicts0 := sortRefs (front.terminal.filter
    (fun r =>
      match versionsGet s.versions r.1 with
      | some vs => decide (r.2 ∉ vs)
      | none => false))
  let (conflicts, cache2) ←
    escalate s.cache_num s.forward_pointers fuel front s.term_cache s.inconsistencies conflicts0
  some ({ missing := missing, conflicts := sortRefs conflicts },
        { s with term_cache := cache2 })

end Chain

/-- States reachable from a freshly constructed chain by successful
`add_block` calls (each call completing within some recursion budget). -/
inductive Reachable : ChainState → Prop
  | init (is_personal_chain : Bool) (cache_num : Nat) :
      Reachable (Chain.init is_personal_chain cache_num)
  | step {s s' : ChainState} {b : PlexusBlock} (fuel : Nat) :
      Reachable s → Chain.add_block fuel s b = some s' → Reachable s'

/-- Numeric value of a (lowercase) hex digit. -/
def hexVal (c : Char) : Nat :=
  if c.toNat ≤ 57 then c.toNat - 48 else c.toNat - 87

/-- Decode a hex string, two digits per byte, into the character list it
renders. -/
def hexPairsToAscii : List Char → List Char
  | c1 :: c2 :: rest => Char.ofNat (16 * hexVal c1 + hexVal c2) :: hexPairsToAscii rest
  | _ => []

/-- Decode a hex string into the ASCII string it renders. -/
def hexToAsciiStr (s : String) : String := String.mk (hexPairsToAscii s.data)

/-! Concrete blocks and states used in the scenario theorems below.  All
chains are community chains (`is_personal_chain = false`), so `add_block`
reads the `links` and `com_seq_num` fields. -/

/-- The initial community-chain state with the default cache capacity. -/
def chain0 : ChainState := Chain.init false 100000

/-- Scenario S1 block `b1`: height 1, links to genesis, short hash
`"aaaaaaaa"`. -/
def blkA : PlexusBlock := ⟨"aaaaaaaa", [], [(0, "30303030")], 0, 1⟩

/-- Scenario S1 block `b2`: height 2, links to `(1, "aaaaaaaa")`. -/
def blkB2 : PlexusBlock := ⟨"bbbbbbbb", [], [(1, "aaaaaaaa")], 0, 2⟩

/-- Scenario S4 block `bX`: height 2, links to the never-delivered parent
`(1, "zzzzzzzz")`. -/
def blkD : PlexusBlock := ⟨"dddddddd", [], [(1, "zzzzzzzz")], 0, 2⟩

/-- Height-2 block referencing the (initially absent) parent
`(1, "pppppppp")`. -/
def blkX : PlexusBlock := ⟨"xxxxxxxx", [], [(1, "pppppppp")], 0, 2⟩

/-- Sibling of `blkX` at height 2 with the same parent link. -/
def blkY : PlexusBlock := ⟨"yyyyyyyy", [], [(1, "pppppppp")], 0, 2⟩

/-- The late-arriving parent `(1, "pppppppp")`, linking to genesis. -/
def blkP : PlexusBlock := ⟨"pppppppp", [], [(0, "30303030")], 0, 1⟩

/-- Height-3 block extending `(2, "xxxxxxxx")`. -/
def blkW : PlexusBlock := ⟨"wwwwwwww", [], [(2, "xxxxxxxx")], 0, 3⟩

/-- Height-1 block with hash `"bbbbbbbb"`, linking to genesis. -/
def blkB1 : PlexusBlock := ⟨"bbbbbbbb", [], [(0, "30303030")], 0, 1⟩

/-- Height-2 block linking to `(1, "aaaaaaaa")` (a hash never stored at
height 1 when `blkB1` is the height-1 block). -/
def blkX2 : PlexusBlock := ⟨"xxxxxxxx", [], [(1, "aaaaaaaa")], 0, 2⟩

/-- A malformed block in the sense of the specification: its parent
links hold the 2-character short hash `"zz"` (wrong length) and a parent
sequence number 0 outside a genesis link. -/
def blkBad : PlexusBlock := ⟨"cccccccc", [], [(0, "q"), (1, "zz")], 0, 1⟩

/-- The S1 state: `blkA` then `blkB2` ingested into a fresh chain. -/
def chainS1 : ChainState := (Chain.add_all 20 chain0 [blkA, blkB2]).getD chain0

/-- The S4-style state: `blkA` then `blkD` ingested, leaving the tracked
inconsistency `(1, "zzzzzzzz")`. -/
def chainS4 : ChainState := (Chain.add_all 20 chain0 [blkA, blkD]).getD chain0

/-- The stale-cache state: `blkX`, `blkY`, `blkP`, `blkW` ingested and
`blkP` ingested again, so that the traversal for the repeated `blkP`
serves the stale cache entry of `(1, "pppppppp")`. -/
def chainStale : ChainState :=
  (Chain.add_all 20 chain0 [blkX, blkY, blkP, blkW, blkP]).getD chain0

/-- The remote frontier of scenario S5. -/
def frontS5 : Frontier := ⟨[(5, "eeeeeeee")], [], []⟩

/-- A remote frontier that accepts `(2, "dddddddd")` as terminal while
declaring height 2 as a hole. -/
def frontHole2 : Frontier := ⟨[(2, "dddddddd")], [(2, 2)], []⟩

/-- One-block state holding only `blkX`, whose missing parent leaves the
hole at height 1. -/
def chainHole : ChainState := (Chain.add_block 20 chain0 blkX).getD chain0

/-- One-block state holding only `blkA`. -/
def chainA : ChainState := (Chain.add_block 20 chain0 blkA).getD chain0

/-- State obtained by ingesting the malformed block `blkBad` into a
fresh chain. -/
def chainBad : ChainState := (Chain.add_block 20 chain0 blkBad).getD chain0

/-! Predicates used by the invariant theorems. -/

/-- A reference whose hash is stored in the version index at its
height. -/
def StoredRef (versions : List (Nat × List ShortKey)) (r : BlockRef) : Prop :=
  r.2 ∈ (versionsGet versions r.1).getD []

/-- A stored reference, or the synthetic genesis reference. -/
def StoredOrGenesis (versions : List (Nat × List ShortKey)) (r : BlockRef) : Prop :=
  StoredRef versions r ∨ r = genesisRef

/-- Every child recorded in the forward map is a stored reference. -/
def FwdOK (versions : List (Nat × List ShortKey))
    (fwd : List (BlockRef × List BlockRef)) : Prop :=
  ∀ kv ∈ fwd, ∀ v ∈ kv.2, StoredRef versions v

/-- Every element of every cache entry is stored-or-genesis. -/
def CacheOK (versions : List (Nat × List ShortKey)) (cache : TermCache) : Prop :=
  ∀ kv ∈ cache, ∀ v ∈ kv.2, StoredOrGenesis versions v

/-- Every element of the terminal set is stored-or-genesis. -/
def TerminalOK (s : ChainState) : Prop :=
  ∀ r ∈ s.terminal, StoredOrGenesis s.versions r

/-- Cache freshness: every element of every cache entry currently has no
outgoing forward edge.  A cache entry goes stale exactly when one of its
elements later acquires a child. -/
def FreshCache (fwd : List (BlockRef × List BlockRef)) (cache : TermCache) : Prop :=
  ∀ kv ∈ cache, ∀ v ∈ kv.2, Chain.get_next_link fwd v = none

/-- Version-index keys are bounded by `max_known_seq_num`. -/
def KeysLeMax (s : ChainState) : Prop :=
  ∀ q, versionsMem s.versions q = true → q ≤ s.max_known_seq_num

/-- Version-index keys are strictly sorted (canonical association
list). -/
def VersionsSorted (versions : List (Nat × List ShortKey)) : Prop :=
  List.Pairwise (· < ·) (versions.map Prod.fst)

/-- The bundle of structural invariants carried through reachability
inductions. -/
def ChainInv (s : ChainState) : Prop :=
  VersionsSorted s.versions ∧
  FwdOK s.versions s.forward_pointers ∧
  CacheOK s.versions s.term_cache ∧
  TerminalOK s ∧
  s.terminal ≠ [] ∧
  KeysLeMax s

/-- The `(seq, short-hash)` key `add_block` derives from a block under a
given chain mode. -/
def blockKey (personal : Bool) (b : PlexusBlock) : Nat × ShortKey :=
  ((if personal then b.sequence_number else b.com_seq_num), shorten b.hash)

/-- The action of one `add_block` call on the `(versions,
max_known_seq_num)` pair, as a pure fold step. -/
def versionsStep (vm : List (Nat × List ShortKey) × Nat) (k : Nat × ShortKey) :
    List (Nat × List ShortKey) × Nat :=
  (versionsAdd vm.1 k.1 k.2,
   if !(versionsMem vm.1 k.1) && decide (vm.2 < k.1) then k.1 else vm.2)

/-- The state after ingesting `blkB1` then `blkX2`. -/
def chainPermA : ChainState := (Chain.add_all 20 chain0 [blkB1, blkX2]).getD chain0

/-- The state after ingesting `blkX2` then `blkB1`. -/
def chainPermB : ChainState := (Chain.add_all 20 chain0 [blkX2, blkB1]).getD chain0

/-! ## Helper lemmas and claim theorems -/

theorem reachable_add_all {s s' : ChainState} (fuel : Nat) {bs : List PlexusBlock}
    (hr : Reachable s) (h : Chain.add_all fuel s bs = some s') : Reachable s' := by
  induction bs generalizing s with
  | nil => exact (Option.some.inj h) ▸ hr
  | cons b bs ih =>
    unfold Chain.add_all at h
    cases hb : Chain.add_block fuel s b with
    | none => rw [hb] at h; simp at h
    | some s1 =>
      rw [hb] at h
      simp only [Option.bind_eq_bind, Option.some_bind] at h
      exact ih (Reachable.step fuel hr hb) h

theorem update_terminal_frame {s : ChainState} {fuel q : Nat} {hh : ShortKey}
    {s' : ChainState} (h : Chain.update_terminal s fuel q hh = some s') :
    s'.versions = s.versions ∧ s'.forward_pointers = s.forward_pointers ∧
    s'.holes = s.holes ∧ s'.inconsistencies = s.inconsistencies ∧
    s'.max_known_seq_num = s.max_known_seq_num ∧ s'.personal = s.personal ∧
    s'.cache_num = s.cache_num := by
  unfold Chain.update_terminal at h
  simp only at h
  cases h1 : Chain.calc_terminal s.cache_num s.forward_pointers fuel s.term_cache
      [(q, hh)] with
  | none => rw [h1] at h; simp at h
  | some p1 =>
    rw [h1] at h
    obtain ⟨t1, c1⟩ := p1
    simp only [Option.bind_eq_bind, Option.some_bind] at h
    cases h2 : Chain.calc_terminal s.cache_num s.forward_pointers fuel c1 s.terminal with
    | none => rw [h2] at h; simp at h
    | some p2 =>
      rw [h2] at h
      obtain ⟨t2, c2⟩ := p2
      simp only [Option.bind_eq_bind, Option.some_bind, Option.some.injEq] at h
      subst h
      exact ⟨rfl, rfl, rfl, rfl, rfl, rfl, rfl⟩

/-- C6: a freshly constructed ChainView (either mode) has terminal equal
to the single-element list holding the genesis reference, whose short
hash is the hex spelling `"30303030"` of the 4-byte ASCII string
`"0000"`; `max_known_seq_num` is 0 and versions, forward pointers, holes
and inconsistencies are all empty. -/
theorem c6_init_state (is_personal_chain : Bool) (cache_num : Nat) :
    (Chain.init is_personal_chain cache_num).terminal = [(0, genesisHash)] ∧
    hexToAsciiStr genesisHash = "0000" ∧
    genesisHash.length = 8 ∧
    (Chain.init is_personal_chain cache_num).max_known_seq_num = 0 ∧
    (Chain.init is_personal_chain cache_num).versions = [] ∧
    (Chain.init is_personal_chain cache_num).forward_pointers = [] ∧
    (Chain.init is_personal_chain cache_num).holes = [] ∧
    (Chain.init is_personal_chain cache_num).inconsistencies = [] :=
  ⟨rfl, by decide, by decide, rfl, rfl, rfl, rfl, rfl⟩

/-- C9: reconciling against a remote frontier whose terminal is empty
fails (the Python `max` of an empty sequence raises) instead of
returning a `FrontierDiff`. -/
theorem c9_reconcile_empty_terminal (fuel : Nat) (s : ChainState) (front : Frontier)
    (h : front.terminal = []) : Chain.reconcile fuel s front = none := by
  unfold Chain.reconcile
  rw [h]
  rfl

/-- Witness for C9 at a concrete state and frontier. -/
theorem c9_witness : Chain.reconcile 20 chain0 ⟨[], [], []⟩ = none :=
  c9_reconcile_empty_terminal 20 chain0 ⟨[], [], []⟩ rfl

/-- C10: `reconcile` leaves every logical field except the
terminal-closure cache unchanged (and `frontier` is a pure function of
the state). -/
theorem c10_reconcile_frame (fuel : Nat) (s : ChainState) (front : Frontier)
    (d : FrontierDiff) (s' : ChainState)
    (h : Chain.reconcile fuel s front = some (d, s')) :
    s'.versions = s.versions ∧ s'.forward_pointers = s.forward_pointers ∧
    s'.holes = s.holes ∧ s'.inconsistencies = s.inconsistencies ∧
    s'.terminal = s.terminal ∧ s'.max_known_seq_num = s.max_known_seq_num ∧
    s'.personal = s.personal := by
  unfold Chain.reconcile at h
  cases hm : Chain.maxLink front.terminal with
  | none => rw [hm] at h; simp at h
  | some mx =>
    rw [hm] at h
    simp only [Option.bind_eq_bind, Option.some_bind] at h
    cases he : Chain.escalate s.cache_num s.forward_pointers fuel front s.term_cache
        s.inconsistencies
        (sortRefs (front.terminal.filter (fun r =>
          match versionsGet s.versions r.1 with
          | some vs => decide (r.2 ∉ vs)
          | none => false))) with
    | none => rw [he] at h; simp at h
    | some pr =>
      rw [he] at h
      obtain ⟨c2, cache2⟩ := pr
      simp only [Option.bind_eq_bind, Option.some_bind, Option.some.injEq,
        Prod.mk.injEq] at h
      obtain ⟨-, hs'⟩ := h
      subst hs'
      exact ⟨rfl, rfl, rfl, rfl, rfl, rfl, rfl⟩

/-- Witness for C10: a successful reconcile at the initial state. -/
theorem c10_witness :
    Chain.reconcile 20 chain0 ⟨[genesisRef], [], []⟩ =
      some (⟨[], []⟩, chain0) ∧
    chain0.versions = chain0.versions := by
  have h : Chain.reconcile 20 chain0 ⟨[genesisRef], [], []⟩ =
      some (⟨[], []⟩, chain0) := by decide
  exact ⟨h, (c10_reconcile_frame 20 chain0 ⟨[genesisRef], [], []⟩ ⟨[], []⟩ chain0 h).1⟩

/-- A hash is a member of the set it was just inserted into. -/
theorem mem_insertStr_self (h : ShortKey) (vs : List ShortKey) : h ∈ insertStr h vs := by
  induction vs with
  | nil => simp [insertStr]
  | cons y ys ih =>
    unfold insertStr
    by_cases he : h = y
    · simp [he]
    · rw [if_neg he]
      by_cases hl : strLt h y
      · simp [hl]
      · rw [if_neg hl]
        exact List.mem_cons_of_mem y ih

/-- The hash just recorded by `versionsAdd` is retrievable at its
height. -/
theorem mem_versionsGet_versionsAdd (m : List (Nat × List ShortKey)) (q : Nat)
    (h : ShortKey) : h ∈ (versionsGet (versionsAdd m q h) q).getD [] := by
  induction m with
  | nil => simp [versionsAdd, versionsGet]
  | cons kv rest ih =>
    obtain ⟨k, vs⟩ := kv
    unfold versionsAdd
    by_cases he : q = k
    · simp [he, versionsGet, mem_insertStr_self]
    · rw [if_neg he]
      by_cases hl : q < k
      · simp [hl, versionsGet]
      · rw [if_neg hl]
        simpa [versionsGet, he] using ih

/-- C5 (amended): `add_block` performs no validation at all; whenever it
returns, it has recorded the block's short hash at the block's indexing
height, malformed parent links included. -/
theorem c5_add_block_no_validation (fuel : Nat) (s : ChainState) (b : PlexusBlock)
    (s' : ChainState) (h : Chain.add_block fuel s b = some s') :
    shorten b.hash ∈ (versionsGet s'.versions
      (if s.personal then b.sequence_number else b.com_seq_num)).getD [] := by
  unfold Chain.add_block at h
  have hv := (update_terminal_frame h).1
  rw [hv]
  simp only [Chain.update_inconsistencies, Chain.update_holes,
    Chain.update_forward_pointers, Chain.update_versions]
  exact mem_versionsGet_versionsAdd s.versions _ (shorten b.hash)

/-- Witness for C5: the malformed block `blkBad` (short parent hash of
length 2, non-genesis parent sequence 0) is accepted and recorded. -/
theorem c5_witness :
    shorten blkBad.hash ∈ (versionsGet chainBad.versions
      (if chain0.personal then blkBad.sequence_number else blkBad.com_seq_num)).getD [] :=
  c5_add_block_no_validation 20 chain0 blkBad chainBad (by decide)

/-- C5 counterexample: ingesting the malformed block `blkBad` does not
raise and does mutate the state (the claim asserts rejection with the
state left unchanged). -/
theorem c5_counterexample :
    (Chain.add_block 20 chain0 blkBad).map (fun s => s.versions) =
      some [(1, ["cccccccc"])] ∧
    chain0.versions = [] := by
  exact ⟨by decide, rfl⟩

/-- C4: at the failing input, height 2 lies in the expansion of the
remote holes ranges, the source's integer-in-ranges membership test is
nevertheless false (an int never equals a `(lo, hi)` pair), and the code
escalates the local inconsistency into the conflict set — against the
claimed hole-aware semantics. -/
theorem c4_holes_test_vacuous :
    2 ∈ expand_ranges frontHole2.holes ∧
    Chain.intMemRanges 2 frontHole2.holes = false ∧
    (Chain.reconcile 20 chainS4 frontHole2).map (fun p => p.1) =
      some ⟨[], [(1, "zzzzzzzz")]⟩ :=
  ⟨by decide, by decide, by decide⟩

/-- C1 counterexample: in the reachable state `chainStale` (five
`add_block` calls, the last served from a stale cache entry mixing a
childless ref with one that acquired a child), the non-genesis terminal
entry `(2, "xxxxxxxx")` has a recorded forward edge. -/
theorem c1_counterexample :
    Reachable chainStale ∧
    (2, "xxxxxxxx") ∈ chainStale.terminal ∧
    (2, "xxxxxxxx") ≠ genesisRef ∧
    fwdGet chainStale.forward_pointers (2, "xxxxxxxx") = some [(3, "wwwwwwww")] := by
  refine ⟨?_, by decide, by decide, by decide⟩
  exact @reachable_add_all chain0 chainStale 20 [blkX, blkY, blkP, blkW, blkP]
    (Reachable.init false 100000) (by decide)

/-- C2 counterexample: in the reachable state `chainS4` (non-empty
inconsistency set), reconciling against the view's own frontier returns
a non-empty conflict set. -/
theorem c2_counterexample :
    Reachable chainS4 ∧
    (Chain.reconcile 20 chainS4 (Chain.frontier chainS4)).map (fun p => p.1) =
      some ⟨[], [(1, "zzzzzzzz")]⟩ ∧
    (⟨[], [(1, "zzzzzzzz")]⟩ : FrontierDiff) ≠ ⟨[], []⟩ := by
  refine ⟨?_, by decide, by decide⟩
  exact @reachable_add_all chain0 chainS4 20 [blkA, blkD]
    (Reachable.init false 100000) (by decide)

/-- C3 counterexample: the two permutations of the block set
`{blkB1, blkX2}` yield different inconsistency sets, so ingestion does
not commute. -/
theorem c3_counterexample :
    [blkB1, blkX2].Perm [blkX2, blkB1] ∧
    (Chain.add_all 20 chain0 [blkB1, blkX2]).map (fun s => s.inconsistencies) =
      some [(1, "aaaaaaaa")] ∧
    (Chain.add_all 20 chain0 [blkX2, blkB1]).map (fun s => s.inconsistencies) =
      some [] := by
  refine ⟨List.Perm.swap blkX2 blkB1 [], by decide, by decide⟩

/-- Membership in `insertNat`. -/
theorem mem_insertNat {x y : Nat} {l : List Nat} :
    x ∈ Chain.insertNat y l ↔ x = y ∨ x ∈ l := by
  induction l with
  | nil => simp [Chain.insertNat]
  | cons z zs ih =>
    unfold Chain.insertNat
    by_cases he : y = z
    · subst he
      rw [if_pos rfl]
      simp only [List.mem_cons]
      tauto
    · rw [if_neg he]
      by_cases hl : y < z
      · rw [if_pos hl]
        simp [or_comm, or_left_comm]
      · rw [if_neg hl]
        simp only [List.mem_cons, ih]
        tauto

/-- Membership in versions after `versionsAdd`. -/
theorem versionsMem_versionsAdd (m : List (Nat × List ShortKey)) (q : Nat)
    (h : ShortKey) (x : Nat) :
    versionsMem (versionsAdd m q h) x = (decide (x = q) || versionsMem m x) := by
  induction m with
  | nil =>
    by_cases he : x = q <;> simp [versionsAdd, versionsMem, versionsGet, he]
  | cons kv rest ih =>
    obtain ⟨k, vs⟩ := kv
    unfold versionsAdd
    by_cases he : q = k
    · subst he
      by_cases hx : x = q <;> simp [versionsMem, versionsGet, hx]
    · rw [if_neg he]
      by_cases hl : q < k
      · rw [if_pos hl]
        by_cases hx : x = q
        · simp [versionsMem, versionsGet, hx]
        · simp [versionsMem, versionsGet, hx]
      · rw [if_neg hl]
        by_cases hk : x = k
        · simp [versionsMem, versionsGet, hk]
        · simpa [versionsMem, versionsGet, hk] using ih

/-- Elements produced by the hole walk are absent from the version
index. -/
theorem mem_holeWalk {versions : List (Nat × List ShortKey)} :
    ∀ (s : Nat) (holes : List Nat) (x : Nat), x ∈ Chain.holeWalk versions s holes →
      x ∈ holes ∨ versionsMem versions x = false := by
  intro s
  induction s with
  | zero => intro holes x hx; exact Or.inl hx
  | succ n ih =>
    intro holes x hx
    unfold Chain.holeWalk at hx
    by_cases hv : versionsMem versions (n + 1) = true
    · rw [if_pos hv] at hx; exact Or.inl hx
    · rw [if_neg hv] at hx
      rcases ih _ x hx with hmem | hfalse
      · rcases mem_insertNat.mp hmem with rfl | hmem2
        · exact Or.inr (Bool.not_eq_true _ ▸ hv)
        · exact Or.inl hmem2
      · exact Or.inr hfalse

/-- Elements of the holes set after `update_holes` are either old holes
other than the new block's height, or heights absent from the version
index. -/
theorem holes_update_holes {s : ChainState} {seq : Nat} {links : List BlockRef}
    {x : Nat} (hx : x ∈ (Chain.update_holes s seq links).holes) :
    (x ∈ s.holes ∧ x ≠ seq) ∨ versionsMem s.versions x = false := by
  unfold Chain.update_holes at hx
  simp only at hx
  have hstep : ∀ (ls : List BlockRef) (h0 : List Nat),
      x ∈ ls.foldl (fun hs l =>
        if versionsMem s.versions l.1 then hs else Chain.holeWalk s.versions l.1 hs) h0 →
      x ∈ h0 ∨ versionsMem s.versions x = false := by
    intro ls
    induction ls with
    | nil => intro h0 hh; exact Or.inl hh
    | cons l rest ih =>
      intro h0 hh
      simp only [List.foldl_cons] at hh
      rcases ih _ hh with hin | hfalse
      · by_cases hv : versionsMem s.versions l.1 = true
        · rw [if_pos hv] at hin; exact Or.inl hin
        · rw [if_neg hv] at hin
          exact mem_holeWalk l.1 h0 x hin
      · exact Or.inr hfalse
  rcases hstep _ _ hx with hin | hfalse
  · left
    by_cases hs : seq ∈ s.holes
    · rw [if_pos hs] at hin
      have := List.mem_filter.mp hin
      refine ⟨this.1, by simpa using this.2⟩
    · rw [if_neg hs] at hin
      exact ⟨hin, fun hxe => hs (hxe ▸ hin)⟩
  · exact Or.inr hfalse

/-- C7: in every reachable state the holes set is disjoint from the
version-index keys. -/
theorem c7_holes_versions_disjoint (s : ChainState) (hr : Reachable s) :
    ∀ q ∈ s.holes, versionsMem s.versions q = false := by
  induction hr with
  | init p c => intro q hq; simp [Chain.init] at hq
  | @step t t' b fuel _ hstep ih =>
    intro q hq
    unfold Chain.add_block at hstep
    simp only at hstep
    have hframe := update_terminal_frame hstep
    rw [hframe.1]
    rw [hframe.2.2.1] at hq
    simp only [Chain.update_inconsistencies] at hq ⊢
    rcases holes_update_holes hq with ⟨hold, hne⟩ | hfalse
    · simp only [Chain.update_holes, Chain.update_forward_pointers,
        Chain.update_versions] at hold ⊢
      rw [versionsMem_versionsAdd]
      have := ih q hold
      simp [this, hne]
    · simpa only [Chain.update_holes, Chain.update_forward_pointers,
        Chain.update_versions] using hfalse

/-- Witness for C7 at the one-block state with a hole at height 1. -/
theorem c7_witness : 1 ∈ chainHole.holes ∧ versionsMem chainHole.versions 1 = false := by
  have hr : Reachable chainHole :=
    Reachable.step 20 (Reachable.init false 100000)
      (show Chain.add_block 20 chain0 blkX = some chainHole by decide)
  exact ⟨by decide, c7_holes_versions_disjoint chainHole hr 1 (by decide)⟩

/-! ## Membership lemmas for the set and cache operations -/

theorem mem_insertRef {x y : BlockRef} {l : List BlockRef} :
    x ∈ insertRef y l ↔ x = y ∨ x ∈ l := by
  induction l with
  | nil => simp [insertRef]
  | cons z zs ih =>
    unfold insertRef
    by_cases he : y = z
    · subst he
      rw [if_pos rfl]
      simp only [List.mem_cons]
      tauto
    · rw [if_neg he]
      by_cases hl : refLt y z
      · rw [if_pos hl]
        simp [List.mem_cons]
      · rw [if_neg hl]
        simp only [List.mem_cons, ih]
        tauto

theorem mem_unionRefs {x : BlockRef} {a l : List BlockRef} :
    x ∈ unionRefs a l ↔ x ∈ a ∨ x ∈ l := by
  unfold unionRefs
  induction l generalizing a with
  | nil => simp
  | cons z zs ih =>
    simp only [List.foldl_cons, List.mem_cons, ih, mem_insertRef]
    tauto

theorem mem_sortRefs {x : BlockRef} {l : List BlockRef} :
    x ∈ sortRefs l ↔ x ∈ l := by
  unfold sortRefs
  induction l with
  | nil => simp
  | cons z zs ih =>
    simp only [List.foldr_cons, List.mem_cons, mem_insertRef, ih]

theorem cacheFind_mem {c : TermCache} {k : BlockRef} {v : List BlockRef}
    (h : cacheFind c k = some v) : (k, v) ∈ c := by
  induction c with
  | nil => simp [cacheFind] at h
  | cons e rest ih =>
    obtain ⟨a, vs⟩ := e
    unfold cacheFind at h
    by_cases he : k = a
    · rw [if_pos he] at h
      obtain rfl := Option.some.inj h
      exact he ▸ List.mem_cons_self _ _
    · rw [if_neg he] at h
      exact List.mem_cons_of_mem _ (ih h)

theorem mem_cacheRemove {e : BlockRef × List BlockRef} {c : TermCache} {k : BlockRef}
    (h : e ∈ cacheRemove c k) : e ∈ c :=
  (List.mem_filter.mp h).1

theorem mem_lruGet_cache {c : TermCache} {k : BlockRef} {o : Option (List BlockRef)}
    {c' : TermCache} (h : lruGet c k = (o, c'))
    {e : BlockRef × List BlockRef} (he : e ∈ c') : e ∈ c := by
  unfold lruGet at h
  cases hf : cacheFind c k with
  | none =>
    rw [hf] at h
    obtain ⟨-, rfl⟩ := Prod.mk.injEq .. ▸ Prod.mk.inj h
    exact he
  | some v =>
    rw [hf] at h
    obtain ⟨-, rfl⟩ := Prod.mk.injEq .. ▸ Prod.mk.inj h
    rcases List.mem_cons.mp he with rfl | hmem
    · exact cacheFind_mem hf
    · exact mem_cacheRemove hmem

theorem mem_lruPut {cap : Nat} {c : TermCache} {k : BlockRef} {v : List BlockRef}
    {e : BlockRef × List BlockRef} (h : e ∈ lruPut cap c k v) :
    e = (k, v) ∨ e ∈ c := by
  unfold lruPut at h
  by_cases hf : (cacheFind c k).isSome
  · rw [if_pos hf] at h
    rcases List.mem_cons.mp h with rfl | hmem
    · exact Or.inl rfl
    · exact Or.inr (mem_cacheRemove hmem)
  · rw [if_neg hf] at h
    by_cases hc : cap ≤ c.length
    · rw [if_pos hc] at h
      rcases List.mem_cons.mp h with rfl | hmem
      · exact Or.inl rfl
      · exact Or.inr (List.dropLast_sublist c |>.subset hmem)
    · rw [if_neg hc] at h
      rcases List.mem_cons.mp h with rfl | hmem
      · exact Or.inl rfl
      · exact Or.inr hmem

/-- When every element of the cached set is currently childless, the
cache-hit loop only unions the cached set into the result, leaving the
cache and the fresh-entry accumulator untouched. -/
theorem foldl_hit_step_none {fwd : List (BlockRef × List BlockRef)}
    (recur : TermCache → List BlockRef → Option (List BlockRef × TermCache))
    {C : List BlockRef} (hC : ∀ x ∈ C, Chain.get_next_link fwd x = none) :
    ∀ (l : List BlockRef), (∀ x ∈ l, x ∈ C) → ∀ (t0 : List BlockRef) (cch0 : TermCache),
      ∃ t1, l.foldl (Chain.hit_step fwd recur C) (some (t0, cch0, none)) =
          some (t1, cch0, none) ∧ ∀ x ∈ t1, x ∈ t0 ∨ x ∈ C := by
  intro l
  induction l with
  | nil => exact fun _ t0 cch0 => ⟨t0, rfl, fun x hx => Or.inl hx⟩
  | cons c cs ih =>
    intro hl t0 cch0
    have hcc : Chain.get_next_link fwd c = none := hC c (hl c (List.mem_cons_self _ _))
    have hstep : Chain.hit_step fwd recur C (some (t0, cch0, none)) c =
        some (unionRefs t0 C, cch0, none) := by
      simp only [Chain.hit_step, Option.bind_eq_bind, Option.some_bind, hcc]
    rw [List.foldl_cons, hstep]
    obtain ⟨t1, hfold, hsub⟩ :=
      ih (fun x hx => hl x (List.mem_cons_of_mem _ hx)) (unionRefs t0 C) cch0
    refine ⟨t1, hfold, fun x hx => ?_⟩
    rcases hsub x hx with hu | hc2
    · rcases mem_unionRefs.mp hu with h1 | h2
      · exact Or.inl h1
      · exact Or.inr h2
    · exact Or.inr hc2

/-- Under a fresh cache, every reference returned by `__calc_terminal`
is childless and the cache stays fresh. -/
theorem calc_terminal_fresh {cap : Nat} {fwd : List (BlockRef × List BlockRef)} :
    ∀ (fuel : Nat) (cache : TermCache) (cur t : List BlockRef) (c' : TermCache),
      FreshCache fwd cache →
      Chain.calc_terminal cap fwd fuel cache cur = some (t, c') →
      (∀ x ∈ t, Chain.get_next_link fwd x = none) ∧ FreshCache fwd c' := by
  intro fuel
  induction fuel with
  | zero => intro cache cur t c' _ h; simp [Chain.calc_terminal] at h
  | succ fuel ih =>
    intro cache cur t c' hfresh h
    cases cur with
    | nil =>
      unfold Chain.calc_terminal at h
      obtain ⟨rfl, rfl⟩ := Prod.mk.inj (Option.some.inj h)
      exact ⟨fun x hx => absurd hx (List.not_mem_nil x), hfresh⟩
    | cons blk rest =>
      unfold Chain.calc_terminal at h
      cases hnx : Chain.get_next_link fwd blk with
      | none =>
        simp only [hnx] at h
        cases hr : Chain.calc_terminal cap fwd fuel cache rest with
        | none => rw [hr] at h; simp at h
        | some pr =>
          rw [hr] at h
          obtain ⟨t2, c2⟩ := pr
          simp only [Option.bind_eq_bind, Option.some_bind, Option.some.injEq] at h
          obtain ⟨rfl, rfl⟩ := Prod.mk.inj h
          obtain ⟨ht2, hc2⟩ := ih cache rest t2 c2 hfresh hr
          refine ⟨fun x hx => ?_, hc2⟩
          rcases mem_insertRef.mp hx with rfl | hx2
          · exact hnx
          · exact ht2 x hx2
      | some next_blk =>
        cases hlg : lruGet cache blk with
        | mk o c1 =>
          have hfresh1 : FreshCache fwd c1 := fun kv hkv v hv =>
            hfresh kv (mem_lruGet_cache hlg hkv) v hv
          cases o with
          | none =>
            simp only [hnx, hlg] at h
            cases hr1 : Chain.calc_terminal cap fwd fuel c1 next_blk with
            | none => rw [hr1] at h; simp at h
            | some pr1 =>
              rw [hr1] at h
              obtain ⟨new_term, c2⟩ := pr1
              simp only [Option.bind_eq_bind, Option.some_bind] at h
              obtain ⟨hnt, hc2⟩ := ih c1 next_blk new_term c2 hfresh1 hr1
              have hc3 : FreshCache fwd (lruPut cap c2 blk new_term) := by
                intro kv hkv v hv
                rcases mem_lruPut hkv with rfl | hkv2
                · exact hnt v hv
                · exact hc2 kv hkv2 v hv
              cases hr2 : Chain.calc_terminal cap fwd fuel (lruPut cap c2 blk new_term) rest with
              | none => rw [hr2] at h; simp at h
              | some pr2 =>
                rw [hr2] at h
                obtain ⟨t2, c4⟩ := pr2
                simp only [Option.bind_eq_bind, Option.some_bind, Option.some.injEq] at h
                obtain ⟨rfl, rfl⟩ := Prod.mk.inj h
                obtain ⟨ht2, hc4⟩ := ih _ rest t2 c4 hc3 hr2
                refine ⟨fun x hx => ?_, hc4⟩
                rcases mem_unionRefs.mp hx with h1 | h2
                · exact hnt x h1
                · exact ht2 x h2
          | some cached_next =>
            simp only [hnx, hlg] at h
            by_cases hemp : cached_next = []
            · rw [if_pos hemp] at h
              cases hr1 : Chain.calc_terminal cap fwd fuel c1 next_blk with
              | none => rw [hr1] at h; simp at h
              | some pr1 =>
                rw [hr1] at h
                obtain ⟨new_term, c2⟩ := pr1
                simp only [Option.bind_eq_bind, Option.some_bind] at h
                obtain ⟨hnt, hc2⟩ := ih c1 next_blk new_term c2 hfresh1 hr1
                have hc3 : FreshCache fwd (lruPut cap c2 blk new_term) := by
                  intro kv hkv v hv
                  rcases mem_lruPut hkv with rfl | hkv2
                  · exact hnt v hv
                  · exact hc2 kv hkv2 v hv
                cases hr2 : Chain.calc_terminal cap fwd fuel (lruPut cap c2 blk new_term) rest with
                | none => rw [hr2] at h; simp at h
                | some pr2 =>
                  rw [hr2] at h
                  obtain ⟨t2, c4⟩ := pr2
                  simp only [Option.bind_eq_bind, Option.some_bind, Option.some.injEq] at h
                  obtain ⟨rfl, rfl⟩ := Prod.mk.inj h
                  obtain ⟨ht2, hc4⟩ := ih _ rest t2 c4 hc3 hr2
                  refine ⟨fun x hx => ?_, hc4⟩
                  rcases mem_unionRefs.mp hx with h1 | h2
                  · exact hnt x h1
                  · exact ht2 x h2
            · rw [if_neg hemp] at h
              have hmem : (blk, cached_next) ∈ cache := by
                unfold lruGet at hlg
                cases hf : cacheFind cache blk with
                | none => rw [hf] at hlg; simp at hlg
                | some v =>
                  rw [hf] at hlg
                  obtain ⟨ho, -⟩ := Prod.mk.inj hlg
                  obtain rfl := Option.some.inj ho
                  exact cacheFind_mem hf
              have hCfresh : ∀ x ∈ cached_next, Chain.get_next_link fwd x = none :=
                fun x hx => hfresh _ hmem x hx
              obtain ⟨t1, hfold, hsub⟩ :=
                foldl_hit_step_none
                  (fun cch cur => Chain.calc_terminal cap fwd fuel cch cur)
                  hCfresh cached_next (fun x hx => hx) [] c1
              rw [hfold] at h
              simp only [Option.bind_eq_bind, Option.some_bind] at h
              cases hr2 : Chain.calc_terminal cap fwd fuel c1 rest with
              | none => rw [hr2] at h; simp at h
              | some pr2 =>
                rw [hr2] at h
                obtain ⟨t2, c4⟩ := pr2
                simp only [Option.bind_eq_bind, Option.some_bind, Option.some.injEq] at h
                obtain ⟨rfl, rfl⟩ := Prod.mk.inj h
                obtain ⟨ht2, hc4⟩ := ih c1 rest t2 c4 hfresh1 hr2
                refine ⟨fun x hx => ?_, hc4⟩
                rcases mem_unionRefs.mp hx with h1 | h2
                · rcases hsub x h1 with h3 | h4
                  · exact absurd h3 (List.not_mem_nil x)
                  · exact hCfresh x h4
                · exact ht2 x h2

/-- When the cache is fresh at traversal time, the updated terminal set
contains only childless references. -/
theorem update_terminal_fresh {s : ChainState} {fuel q : Nat} {hh : ShortKey}
    {s' : ChainState} (h : Chain.update_terminal s fuel q hh = some s')
    (hfresh : FreshCache s.forward_pointers s.term_cache) :
    ∀ r ∈ s'.terminal, Chain.get_next_link s.forward_pointers r = none := by
  unfold Chain.update_terminal at h
  simp only at h
  cases h1 : Chain.calc_terminal s.cache_num s.forward_pointers fuel s.term_cache
      [(q, hh)] with
  | none => rw [h1] at h; simp at h
  | some p1 =>
    rw [h1] at h
    obtain ⟨t1, c1⟩ := p1
    simp only [Option.bind_eq_bind, Option.some_bind] at h
    cases h2 : Chain.calc_terminal s.cache_num s.forward_pointers fuel c1 s.terminal with
    | none => rw [h2] at h; simp at h
    | some p2 =>
      rw [h2] at h
      obtain ⟨t2, c2⟩ := p2
      simp only [Option.bind_eq_bind, Option.some_bind, Option.some.injEq] at h
      subst h
      intro r hr
      have hr2 := mem_sortRefs.mp hr
      obtain ⟨ht1, hc1⟩ := calc_terminal_fresh fuel s.term_cache [(q, hh)] t1 c1 hfresh h1
      obtain ⟨ht2, -⟩ := calc_terminal_fresh fuel c1 s.terminal t2 c2 hc1 h2
      rcases mem_unionRefs.mp hr2 with h3 | h4
      · exact ht1 r h3
      · exact ht2 r h4

/-- C1 (amended): after an `add_block` call in which the terminal
traversal meets only fresh cache entries (no cached descendant has since
acquired a child), every reference in the resulting terminal set has no
outgoing forward edge.  The unamended claim fails when a stale entry is
served: see the counterexample. -/
theorem c1_terminal_childless_of_fresh (fuel : Nat) (s : ChainState) (b : PlexusBlock)
    (s' : ChainState) (h : Chain.add_block fuel s b = some s')
    (hfresh : FreshCache s'.forward_pointers s.term_cache) :
    ∀ r ∈ s'.terminal, Chain.get_next_link s'.forward_pointers r = none := by
  unfold Chain.add_block at h
  simp only at h
  have hfwd := (update_terminal_frame h).2.1
  intro r hr
  rw [hfwd]
  refine update_terminal_fresh h ?_ r hr
  rw [← hfwd]
  exact hfresh

/-- Witness for the amended C1: the first ingested block becomes the
sole childless terminal entry. -/
theorem c1_witness :
    Chain.get_next_link chainA.forward_pointers (1, "aaaaaaaa") = none :=
  c1_terminal_childless_of_fresh 20 chain0 blkA chainA (by decide)
    (fun kv hkv => absurd hkv (List.not_mem_nil kv))
    (1, "aaaaaaaa") (by decide)

/-! ## Order lemmas for the character-code comparison -/

theorem charListLtb_irrefl : ∀ l : List Char, charListLtb l l = false := by
  intro l
  induction l with
  | nil => rfl
  | cons c cs ih => simp [charListLtb, ih]

theorem charListLtb_trans : ∀ {l1 l2 l3 : List Char},
    charListLtb l1 l2 = true → charListLtb l2 l3 = true → charListLtb l1 l3 = true := by
  intro l1
  induction l1 with
  | nil =>
    intro l2 l3 h12 h23
    cases l2 with
    | nil => exact h23
    | cons c cs =>
      cases l3 with
      | nil => simp [charListLtb] at h23
      | cons d ds => rfl
  | cons a as ih =>
    intro l2 l3 h12 h23
    cases l2 with
    | nil => simp [charListLtb] at h12
    | cons c cs =>
      cases l3 with
      | nil => simp [charListLtb] at h23
      | cons d ds =>
        unfold charListLtb at h12 h23 ⊢
        by_cases hac : a.toNat < c.toNat
        · by_cases hcd : c.toNat < d.toNat
          · simp [show a.toNat < d.toNat from Nat.lt_trans hac hcd]
          · rw [if_neg hcd] at h23
            by_cases hdc : d.toNat < c.toNat
            · simp [hdc] at h23
            · rw [if_neg hdc] at h23
              have hcd2 : c.toNat = d.toNat := Nat.le_antisymm (Nat.le_of_not_lt hdc) (Nat.le_of_not_lt hcd)
              simp [show a.toNat < d.toNat from hcd2 ▸ hac]
        · rw [if_neg hac] at h12
          by_cases hca : c.toNat < a.toNat
          · simp [hca] at h12
          · rw [if_neg hca] at h12
            have hace : a.toNat = c.toNat := Nat.le_antisymm (Nat.le_of_not_lt hca) (Nat.le_of_not_lt hac)
            by_cases hcd : c.toNat < d.toNat
            · simp [show a.toNat < d.toNat from hace ▸ hcd]
            · rw [if_neg hcd] at h23
              by_cases hdc : d.toNat < c.toNat
              · simp [hdc] at h23
              · rw [if_neg hdc] at h23
                have hcde : c.toNat = d.toNat := Nat.le_antisymm (Nat.le_of_not_lt hdc) (Nat.le_of_not_lt hcd)
                have had : ¬ a.toNat < d.toNat := by omega
                have hda : ¬ d.toNat < a.toNat := by omega
                rw [if_neg had, if_neg hda]
                exact ih h12 h23

theorem charListLtb_eq_of_not {l1 l2 : List Char}
    (h12 : charListLtb l1 l2 = false) (h21 : charListLtb l2 l1 = false) : l1 = l2 := by
  induction l1 generalizing l2 with
  | nil =>
    cases l2 with
    | nil => rfl
    | cons c cs => simp [charListLtb] at h12
  | cons a as ih =>
    cases l2 with
    | nil => simp [charListLtb] at h21
    | cons c cs =>
      unfold charListLtb at h12 h21
      by_cases hac : a.toNat < c.toNat
      · simp [hac] at h12
      · rw [if_neg hac] at h12
        by_cases hca : c.toNat < a.toNat
        · simp [hca] at h21
        · rw [if_neg hca] at h12
          rw [if_neg hca, if_neg hac] at h21
          have : a = c := Char.ext (UInt32.toNat.inj
            (Nat.le_antisymm (Nat.le_of_not_lt hca) (Nat.le_of_not_lt hac)))
          rw [this, ih h12 h21]

theorem strLt_irrefl (a : ShortKey) : ¬ strLt a a := by
  simp [strLt, charListLtb_irrefl]

theorem strLt_trans {a b c : ShortKey} (h1 : strLt a b) (h2 : strLt b c) : strLt a c :=
  charListLtb_trans h1 h2

theorem strLt_asymm {a b : ShortKey} (h : strLt a b) : ¬ strLt b a :=
  fun h2 => strLt_irrefl a (strLt_trans h h2)

theorem eq_of_not_strLt {a b : ShortKey} (h1 : ¬ strLt a b) (h2 : ¬ strLt b a) : a = b := by
  have := charListLtb_eq_of_not (Bool.not_eq_true _ ▸ h1) (Bool.not_eq_true _ ▸ h2)
  cases a; cases b; exact congrArg String.mk this

theorem refLt_irrefl (a : BlockRef) : ¬ refLt a a := by
  unfold refLt
  rintro (h | ⟨-, h⟩)
  · exact Nat.lt_irrefl _ h
  · exact strLt_irrefl _ h

theorem refLt_trans {a b c : BlockRef} (h1 : refLt a b) (h2 : refLt b c) : refLt a c := by
  unfold refLt at *
  rcases h1 with h1 | ⟨e1, s1⟩
  · rcases h2 with h2 | ⟨e2, s2⟩
    · exact Or.inl (Nat.lt_trans h1 h2)
    · exact Or.inl (e2 ▸ h1)
  · rcases h2 with h2 | ⟨e2, s2⟩
    · exact Or.inl (e1 ▸ h2)
    · exact Or.inr ⟨e1.trans e2, strLt_trans s1 s2⟩

theorem refLt_asymm {a b : BlockRef} (h : refLt a b) : ¬ refLt b a :=
  fun h2 => refLt_irrefl a (refLt_trans h h2)

theorem eq_of_not_refLt {a b : BlockRef} (h1 : ¬ refLt a b) (h2 : ¬ refLt b a) : a = b := by
  unfold refLt at h1 h2
  push_neg at h1 h2
  obtain ⟨hn1, hs1⟩ := h1
  obtain ⟨hn2, hs2⟩ := h2
  have he : a.1 = b.1 := Nat.le_antisymm hn2 hn1
  have hs : a.2 = b.2 := eq_of_not_strLt (hs1 he) (hs2 he.symm)
  exact Prod.ext he hs

/-- Two insertions into a hash set commute. -/
theorem insertStr_comm (a b : ShortKey) :
    ∀ l, insertStr a (insertStr b l) = insertStr b (insertStr a l) := by
  by_cases hab : a = b
  · subst hab; intro l; rfl
  intro l
  induction l with
  | nil =>
    by_cases hl : strLt a b
    · simp [insertStr, hab, Ne.symm hab, hl, strLt_asymm hl]
    · have hba : strLt b a := by
        by_contra hc
        exact hab (eq_of_not_strLt hl hc)
      simp [insertStr, hab, Ne.symm hab, hl, hba]
  | cons y ys ih =>
    by_cases hay : a = y
    · subst hay
      by_cases hba : strLt b a
      · simp [insertStr, hab, Ne.symm hab, hba, strLt_asymm hba]
      · simp [insertStr, hab, Ne.symm hab, hba]
    · by_cases hby : b = y
      · subst hby
        by_cases hab2 : strLt a b
        · simp [insertStr, hab, Ne.symm hab, hab2, strLt_asymm hab2]
        · simp [insertStr, hab, Ne.symm hab, hab2]
      · by_cases hay2 : strLt a y <;> by_cases hby2 : strLt b y
        · by_cases hab2 : strLt a b
          · simp [insertStr, hab, Ne.symm hab, hay, hby, hay2, hby2, hab2,
              strLt_asymm hab2]
          · have hba2 : strLt b a := by
              by_contra hc
              exact hab (eq_of_not_strLt hab2 hc)
            simp [insertStr, hab, Ne.symm hab, hay, hby, hay2, hby2, hab2, hba2]
        · have hba : ¬ strLt b a := fun hc => hby2 (strLt_trans hc hay2)
          have hab3 : strLt a b := by
            by_contra hc
            exact hab (eq_of_not_strLt hc hba)
          simp [insertStr, hab, Ne.symm hab, hay, hby, hay2, hby2, hab3, hba]
        · have hab3 : ¬ strLt a b := fun hc => hay2 (strLt_trans hc hby2)
          have hba : strLt b a := by
            by_contra hc
            exact hab (eq_of_not_strLt hab3 hc)
          simp [insertStr, hab, Ne.symm hab, hay, hby, hay2, hby2, hab3, hba]
        · simp [insertStr, hab, Ne.symm hab, hay, hby, hay2, hby2, ih]

/-- Two `versionsAdd` insertions commute. -/
theorem versionsAdd_comm (m : List (Nat × List ShortKey)) (q1 q2 : Nat)
    (h1 h2 : ShortKey) :
    versionsAdd (versionsAdd m q1 h1) q2 h2 = versionsAdd (versionsAdd m q2 h2) q1 h1 := by
  by_cases hq : q1 = q2
  · subst hq
    induction m with
    | nil =>
      have hp : insertStr h2 [h1] = insertStr h1 [h2] := insertStr_comm h2 h1 []
      simp [versionsAdd, hp]
    | cons kv rest ih =>
      obtain ⟨k, vs⟩ := kv
      by_cases he : q1 = k
      · simp [versionsAdd, he, insertStr_comm]
      · by_cases hl : q1 < k
        · have hp : insertStr h2 [h1] = insertStr h1 [h2] := insertStr_comm h2 h1 []
          simp [versionsAdd, he, hl, hp]
        · simp [versionsAdd, he, hl, ih]
  · induction m with
    | nil =>
      by_cases hl : q1 < q2
      · simp [versionsAdd, hq, Ne.symm hq, hl, Nat.lt_asymm hl]
      · have hl2 : q2 < q1 := by omega
        simp [versionsAdd, hq, Ne.symm hq, hl, hl2]
    | cons kv rest ih =>
      obtain ⟨k, vs⟩ := kv
      by_cases he1 : q1 = k
      · subst he1
        by_cases hl : q2 < q1
        · simp [versionsAdd, hq, Ne.symm hq, hl, Nat.lt_asymm hl]
        · simp [versionsAdd, hq, Ne.symm hq, hl]
      · by_cases he2 : q2 = k
        · subst he2
          by_cases hl : q1 < q2
          · simp [versionsAdd, hq, Ne.symm hq, he1, hl, Nat.lt_asymm hl]
          · simp [versionsAdd, hq, Ne.symm hq, he1, hl]
        · by_cases hl1 : q1 < k <;> by_cases hl2 : q2 < k
          · by_cases hl : q1 < q2
            · simp [versionsAdd, hq, Ne.symm hq, he1, he2, hl1, hl2, hl,
                Nat.lt_asymm hl]
            · have hl' : q2 < q1 := by omega
              simp [versionsAdd, hq, Ne.symm hq, he1, he2, hl1, hl2, hl, hl']
          · have hn : ¬ q2 < q1 := by omega
            have hn2 : ¬ q1 = q2 := hq
            simp [versionsAdd, hq, Ne.symm hq, he1, he2, hl1, hl2, hn]
          · have hn : ¬ q1 < q2 := by omega
            simp [versionsAdd, hq, Ne.symm hq, he1, he2, hl1, hl2, hn]
          · simp [versionsAdd, he1, he2, hl1, hl2, ih]

/-- The pure `(versions, max_known_seq_num)` fold step is commutative. -/
theorem versionsStep_comm (vm : List (Nat × List ShortKey) × Nat) (k1 k2 : Nat × ShortKey) :
    versionsStep (versionsStep vm k1) k2 = versionsStep (versionsStep vm k2) k1 := by
  obtain ⟨m, mx⟩ := vm
  obtain ⟨q1, h1⟩ := k1
  obtain ⟨q2, h2⟩ := k2
  unfold versionsStep
  refine Prod.ext (versionsAdd_comm m q1 q2 h1 h2) ?_
  simp only [versionsMem_versionsAdd, Bool.not_or, Bool.and_eq_true, Bool.not_eq_true',
    decide_eq_true_eq, decide_eq_false_iff_not, Bool.and_eq_true, Bool.not_eq_true]
  by_cases hm1 : versionsMem m q1 = true <;> by_cases hm2 : versionsMem m q2 = true <;>
    by_cases hq : q1 = q2 <;>
    simp [hm1, hm2, hq] <;>
    split_ifs <;>
    simp_all <;>
    omega

/-- The effect of one `add_block` call on `(versions, max_known_seq_num)`
is the pure fold step `versionsStep` at the block's key. -/
theorem add_block_versions {fuel : Nat} {s : ChainState} {b : PlexusBlock}
    {s' : ChainState} (h : Chain.add_block fuel s b = some s') :
    (s'.versions, s'.max_known_seq_num) =
      versionsStep (s.versions, s.max_known_seq_num) (blockKey s.personal b) ∧
    s'.personal = s.personal := by
  unfold Chain.add_block at h
  simp only at h
  have hf := update_terminal_frame h
  refine ⟨Prod.ext ?_ ?_, ?_⟩
  · rw [hf.1]
    simp [Chain.update_inconsistencies, Chain.update_holes,
      Chain.update_forward_pointers, Chain.update_versions, versionsStep, blockKey]
  · rw [hf.2.2.2.2.1]
    simp [Chain.update_inconsistencies, Chain.update_holes,
      Chain.update_forward_pointers, Chain.update_versions, versionsStep, blockKey]
  · rw [hf.2.2.2.2.2.1]
    simp [Chain.update_inconsistencies, Chain.update_holes,
      Chain.update_forward_pointers, Chain.update_versions]

/-- Bulk ingestion acts on `(versions, max_known_seq_num)` as a left
fold of `versionsStep` over the blocks' keys. -/
theorem add_all_versions {fuel : Nat} {s s' : ChainState} {bs : List PlexusBlock}
    (h : Chain.add_all fuel s bs = some s') :
    (s'.versions, s'.max_known_seq_num) =
      (bs.map (blockKey s.personal)).foldl versionsStep
        (s.versions, s.max_known_seq_num) ∧
    s'.personal = s.personal := by
  induction bs generalizing s with
  | nil => obtain rfl := Option.some.inj h; exact ⟨rfl, rfl⟩
  | cons b bs ih =>
    unfold Chain.add_all at h
    cases hb : Chain.add_block fuel s b with
    | none => rw [hb] at h; simp at h
    | some s1 =>
      rw [hb] at h
      simp only [Option.bind_eq_bind, Option.some_bind] at h
      obtain ⟨hv1, hp1⟩ := add_block_versions hb
      obtain ⟨hv2, hp2⟩ := ih h
      refine ⟨?_, hp2.trans hp1⟩
      rw [hv2, hp1]
      simp only [List.map_cons, List.foldl_cons]
      rw [hv1]

/-- C3 (amended): ingesting any two permutations of a block set yields
identical `versions` and `max_known_seq_num` (whenever both ingestions
complete); `holes` and `inconsistencies` are *not* order-independent,
see the counterexample. -/
theorem c3_versions_commute (fuel1 fuel2 : Nat) (s : ChainState)
    (bs1 bs2 : List PlexusBlock) (s1 s2 : ChainState) (hperm : bs1.Perm bs2)
    (h1 : Chain.add_all fuel1 s bs1 = some s1)
    (h2 : Chain.add_all fuel2 s bs2 = some s2) :
    s1.versions = s2.versions ∧ s1.max_known_seq_num = s2.max_known_seq_num := by
  obtain ⟨hv1, -⟩ := add_all_versions h1
  obtain ⟨hv2, -⟩ := add_all_versions h2
  have hpm : (bs1.map (blockKey s.personal)).Perm (bs2.map (blockKey s.personal)) :=
    hperm.map _
  have hfold := hpm.foldl_eq' (fun x _ y _ z => versionsStep_comm z x y)
    (s.versions, s.max_known_seq_num)
  have hpair : (s1.versions, s1.max_known_seq_num) =
      (s2.versions, s2.max_known_seq_num) := by
    rw [hv1, hv2, hfold]
  exact ⟨congrArg Prod.fst hpair, congrArg Prod.snd hpair⟩

/-- Witness for the amended C3 at the two-block permutation pair. -/
theorem c3_witness :
    chainPermA.versions = chainPermB.versions ∧
    chainPermA.max_known_seq_num = chainPermB.max_known_seq_num :=
  c3_versions_commute 20 20 chain0 [blkB1, blkX2] [blkX2, blkB1] chainPermA chainPermB
    (List.Perm.swap blkX2 blkB1 []) (by decide) (by decide)

/-! ## Ranges expansion lemmas -/

theorem mem_countRange {x : Nat} : ∀ (n lo : Nat), x ∈ countRange lo n ↔ lo ≤ x ∧ x < lo + n := by
  intro n
  induction n with
  | zero =>
    intro lo
    simp only [countRange]
    constructor
    · intro h; cases h
    · rintro ⟨h1, h2⟩; omega
  | succ m ih =>
    intro lo
    simp only [countRange, List.mem_cons, ih (lo + 1)]
    omega

theorem mem_rangeClosed {x lo hi : Nat} : x ∈ rangeClosed lo hi ↔ lo ≤ x ∧ x ≤ hi := by
  unfold rangeClosed
  rw [mem_countRange]
  omega

theorem mem_expand_rangesAux {x : Nat} :
    ∀ (ys : List Nat) (lo hi : Nat), lo ≤ hi →
      (x ∈ expand_ranges (rangesAux lo hi ys) ↔ (lo ≤ x ∧ x ≤ hi) ∨ x ∈ ys) := by
  intro ys
  induction ys with
  | nil =>
    intro lo hi hle
    simp [rangesAux, expand_ranges, mem_rangeClosed]
  | cons y ys ih =>
    intro lo hi hle
    unfold rangesAux
    by_cases hy : y = hi + 1
    · rw [if_pos hy, ih lo y (by omega)]
      subst hy
      simp only [List.mem_cons]
      constructor
      · rintro (⟨h1, h2⟩ | h)
        · by_cases hx : x = hi + 1
          · exact Or.inr (Or.inl hx)
          · exact Or.inl ⟨h1, by omega⟩
        · exact Or.inr (Or.inr h)
      · rintro (⟨h1, h2⟩ | hx | h)
        · exact Or.inl ⟨h1, by omega⟩
        · subst hx; exact Or.inl ⟨by omega, by omega⟩
        · exact Or.inr h
    · rw [if_neg hy]
      simp only [expand_ranges, List.mem_append, mem_rangeClosed, ih y y le_rfl,
        List.mem_cons]
      have hyy : (y ≤ x ∧ x ≤ y) ↔ x = y := by omega
      rw [hyy]

theorem mem_expand_ranges_ranges {x : Nat} (hs : List Nat) :
    x ∈ expand_ranges (ranges hs) ↔ x ∈ hs := by
  cases hs with
  | nil => simp [ranges, expand_ranges]
  | cons a as =>
    show x ∈ expand_ranges (rangesAux a a as) ↔ _
    rw [mem_expand_rangesAux as a a le_rfl]
    simp only [List.mem_cons]
    constructor
    · rintro (⟨h1, h2⟩ | h)
      · exact Or.inl (by omega)
      · exact Or.inr h
    · rintro (rfl | h)
      · exact Or.inl ⟨le_rfl, le_rfl⟩
      · exact Or.inr h

/-- Closed form of `reconcile` when the local inconsistency set is
empty: the escalation loop does nothing, the cache is untouched, and the
diff is computed purely from the two known-height sets and the
terminal-conflict filter. -/
theorem reconcile_closed_form (fuel : Nat) {s : ChainState} {front : Frontier}
    {mx : BlockRef} (hmx : Chain.maxLink front.terminal = some mx)
    (hinc : s.inconsistencies = []) :
    Chain.reconcile fuel s front =
      some (⟨ranges (((expand_ranges [(1, mx.1)]).filter
              (fun x => decide (x ∉ expand_ranges front.holes))).filter
              (fun x => decide (x ∉ (expand_ranges [(1, s.max_known_seq_num)]).filter
                (fun x => decide (x ∉ s.holes))))),
             sortRefs (sortRefs (front.terminal.filter (fun r =>
               match versionsGet s.versions r.1 with
               | some vs => decide (r.2 ∉ vs)
               | none => false)))⟩, s) := by
  unfold Chain.reconcile
  rw [hmx, hinc]
  simp only [Option.bind_eq_bind, Option.some_bind, Chain.escalate]
  rw [← hinc]

/-- C8: with a non-empty remote terminal (and no local inconsistencies,
so that the escalation loop is empty), `reconcile` succeeds, leaves the
state unchanged, and its `missing` component expands exactly to the set
difference between the remote-known heights (1 up to the maximal remote
terminal sequence number, minus the expanded remote holes) and the
locally known heights (1 up to `max_known_seq_num`, minus the local
holes).  The second conjunct checks scenario S5 concretely:
`missing = [(3, 5)]` with empty conflicts. -/
theorem c8_reconcile_missing :
    (∀ (fuel : Nat) (s : ChainState) (front : Frontier),
      front.terminal ≠ [] → s.inconsistencies = [] →
      ∃ (d : FrontierDiff) (mx : BlockRef),
        Chain.reconcile fuel s front = some (d, s) ∧
        Chain.maxLink front.terminal = some mx ∧
        ∀ x : Nat, x ∈ expand_ranges d.missing ↔
          (1 ≤ x ∧ x ≤ mx.1 ∧ x ∉ expand_ranges front.holes ∧
           ¬(1 ≤ x ∧ x ≤ s.max_known_seq_num ∧ x ∉ s.holes))) ∧
    (Chain.reconcile 20 chainS1 frontS5).map (fun p => p.1) = some ⟨[(3, 5)], []⟩ := by
  constructor
  · intro fuel s front hterm hinc
    obtain ⟨mx, hmx⟩ : ∃ mx, Chain.maxLink front.terminal = some mx := by
      cases hft : front.terminal with
      | nil => exact absurd hft hterm
      | cons r rs => exact ⟨_, by rw [Chain.maxLink]⟩
    have hrec := reconcile_closed_form fuel hmx hinc
    refine ⟨_, mx, hrec, hmx, fun x => ?_⟩
    show x ∈ expand_ranges (ranges _) ↔ _
    rw [mem_expand_ranges_ranges]
    simp only [List.mem_filter, decide_eq_true_eq, expand_ranges, List.append_nil,
      mem_rangeClosed]
    tauto
  · decide

/-- Witness for C8 at scenario S5: the S1 state against the remote
frontier with terminal `[(5, "eeeeeeee")]`; height 3 is reported
missing. -/
theorem c8_witness :
    (Chain.reconcile 20 chainS1 frontS5).map (fun p => p.2) = some chainS1 ∧
    3 ∈ expand_ranges
      (((Chain.reconcile 20 chainS1 frontS5).map (fun p => p.1.missing)).getD []) := by
  obtain ⟨d, mx, hrec, hmx, hchar⟩ :=
    c8_reconcile_missing.1 20 chainS1 frontS5 (by decide) (by decide)
  have hmx5 : mx = (5, "eeeeeeee") := by
    have h2 : some mx = some ((5 : Nat), ("eeeeeeee" : ShortKey)) := by
      rw [← hmx]; decide
    exact Option.some.inj h2
  constructor
  · rw [hrec]; rfl
  · rw [hrec]
    show 3 ∈ expand_ranges d.missing
    rw [hchar 3]
    subst hmx5
    refine ⟨by decide, by decide, by decide, ?_⟩
    intro hcon
    have h2 : chainS1.max_known_seq_num = 2 := by decide
    omega

/-! ## Lemmas for the reachability invariant -/

theorem mem_insertStr {x y : ShortKey} {l : List ShortKey} :
    x ∈ insertStr y l ↔ x = y ∨ x ∈ l := by
  induction l with
  | nil => simp [insertStr]
  | cons z zs ih =>
    unfold insertStr
    by_cases he : y = z
    · subst he
      rw [if_pos rfl]
      simp only [List.mem_cons]
      tauto
    · rw [if_neg he]
      by_cases hl : strLt y z
      · rw [if_pos hl]
        simp [List.mem_cons]
      · rw [if_neg hl]
        simp only [List.mem_cons, ih]
        tauto

theorem fwdGet_mem {m : List (BlockRef × List BlockRef)} {k : BlockRef}
    {v : List BlockRef} (h : fwdGet m k = some v) : (k, v) ∈ m := by
  induction m with
  | nil => simp [fwdGet] at h
  | cons e rest ih =>
    obtain ⟨a, vs⟩ := e
    unfold fwdGet at h
    by_cases he : k = a
    · rw [if_pos he] at h
      obtain rfl := Option.some.inj h
      exact he ▸ List.mem_cons_self _ _
    · rw [if_neg he] at h
      exact List.mem_cons_of_mem _ (ih h)

theorem get_next_link_mem {fwd : List (BlockRef × List BlockRef)} {r : BlockRef}
    {V : List BlockRef} (h : Chain.get_next_link fwd r = some V) :
    (r, V) ∈ fwd ∧ V ≠ [] := by
  unfold Chain.get_next_link at h
  cases hf : fwdGet fwd r with
  | none => rw [hf] at h; simp at h
  | some v =>
    simp only [hf] at h
    by_cases hv : v = []
    · rw [if_pos hv] at h; simp at h
    · rw [if_neg hv] at h
      obtain rfl := Option.some.inj h
      exact ⟨fwdGet_mem hf, hv⟩

theorem maxLink_mem {l : List BlockRef} {m : BlockRef}
    (h : Chain.maxLink l = some m) : m ∈ l := by
  have key : ∀ (rs : List BlockRef) (r : BlockRef),
      List.foldl (fun a b => if refLt a b then b else a) r rs ∈ r :: rs := by
    intro rs
    induction rs with
    | nil => intro r; exact List.mem_cons_self _ _
    | cons b bs ih =>
      intro r
      simp only [List.foldl_cons]
      by_cases hrb : refLt r b
      · rw [if_pos hrb]
        rcases List.mem_cons.mp (ih b) with h1 | h1
        · rw [h1]; exact List.mem_cons_of_mem _ (List.mem_cons_self _ _)
        · exact List.mem_cons_of_mem _ (List.mem_cons_of_mem _ h1)
      · rw [if_neg hrb]
        rcases List.mem_cons.mp (ih r) with h1 | h1
        · rw [h1]; exact List.mem_cons_self _ _
        · exact List.mem_cons_of_mem _ (List.mem_cons_of_mem _ h1)
  cases l with
  | nil => simp [Chain.maxLink] at h
  | cons r rs =>
    unfold Chain.maxLink at h
    obtain rfl := Option.some.inj h
    exact key rs r

/-- Keys of `versionsAdd`. -/
theorem keys_versionsAdd (m : List (Nat × List ShortKey)) (q : Nat) (h : ShortKey) :
    ∀ k ∈ (versionsAdd m q h).map Prod.fst, k = q ∨ k ∈ m.map Prod.fst := by
  induction m with
  | nil => simp [versionsAdd]
  | cons kv rest ih =>
    obtain ⟨a, vs⟩ := kv
    unfold versionsAdd
    by_cases he : q = a
    · subst he; simp
    · rw [if_neg he]
      by_cases hl : q < a
      · rw [if_pos hl]
        intro k hk
        simpa using hk
      · rw [if_neg hl]
        intro k hk
        simp only [List.map_cons, List.mem_cons] at hk ⊢
        rcases hk with rfl | hk
        · exact Or.inr (Or.inl rfl)
        · rcases ih k hk with h1 | h1
          · exact Or.inl h1
          · exact Or.inr (Or.inr h1)

/-- `versionsAdd` preserves strict sortedness of the keys. -/
theorem versionsAdd_sorted {m : List (Nat × List ShortKey)} (q : Nat) (h : ShortKey)
    (hs : VersionsSorted m) : VersionsSorted (versionsAdd m q h) := by
  induction m with
  | nil => simp [versionsAdd, VersionsSorted]
  | cons kv rest ih =>
    obtain ⟨a, vs⟩ := kv
    unfold VersionsSorted at hs ⊢
    simp only [List.map_cons, List.pairwise_cons] at hs
    obtain ⟨ha, hrest⟩ := hs
    unfold versionsAdd
    by_cases he : q = a
    · subst he
      rw [if_pos rfl]
      simp only [List.map_cons, List.pairwise_cons]
      exact ⟨ha, hrest⟩
    · rw [if_neg he]
      by_cases hl : q < a
      · rw [if_pos hl]
        simp only [List.map_cons, List.pairwise_cons]
        refine ⟨?_, ha, hrest⟩
        intro b hb
        simp only [List.map_cons, List.mem_cons] at hb
        rcases hb with rfl | hb
        · exact hl
        · exact Nat.lt_trans hl (ha b hb)
      · rw [if_neg hl]
        simp only [List.map_cons, List.pairwise_cons]
        refine ⟨?_, ih hrest⟩
        intro b hb
        rcases keys_versionsAdd rest q h b hb with rfl | hb2
        · omega
        · exact ha b hb2

/-- A successful versions lookup comes from an entry of the list. -/
theorem versionsGet_mem {m : List (Nat × List ShortKey)} {q : Nat} {vs : List ShortKey}
    (h : versionsGet m q = some vs) : (q, vs) ∈ m := by
  induction m with
  | nil => simp [versionsGet] at h
  | cons e rest ih =>
    obtain ⟨a, bs⟩ := e
    unfold versionsGet at h
    by_cases he : q = a
    · rw [if_pos he] at h
      obtain rfl := Option.some.inj h
      exact he ▸ List.mem_cons_self _ _
    · rw [if_neg he] at h
      exact List.mem_cons_of_mem _ (ih h)

/-- Lookup after `versionsAdd` on a sorted index. -/
theorem versionsGet_versionsAdd {m : List (Nat × List ShortKey)}
    (hs : VersionsSorted m) (q : Nat) (h : ShortKey) (x : Nat) :
    versionsGet (versionsAdd m q h) x =
      if x = q then some (insertStr h ((versionsGet m q).getD [])) else versionsGet m x := by
  induction m with
  | nil =>
    by_cases hx : x = q <;> simp [versionsAdd, versionsGet, hx, insertStr]
  | cons kv rest ih =>
    obtain ⟨a, vs⟩ := kv
    unfold VersionsSorted at hs
    simp only [List.map_cons, List.pairwise_cons] at hs
    obtain ⟨ha, hrest⟩ := hs
    unfold versionsAdd
    by_cases he : q = a
    · subst he
      by_cases hx : x = q <;> simp [versionsGet, hx]
    · rw [if_neg he]
      by_cases hl : q < a
      · rw [if_pos hl]
        by_cases hx : x = q
        · subst hx
          have hnone2 : versionsGet rest x = none := by
            cases hq2 : versionsGet rest x with
            | none => rfl
            | some vv =>
              exfalso
              have := ha x (List.mem_map_of_mem Prod.fst (versionsGet_mem hq2))
              omega
          simp [versionsGet, hnone2, he, insertStr]
        · simp [versionsGet, hx]
      · rw [if_neg hl]
        by_cases hxa : x = a
        · subst hxa
          simp [versionsGet, Ne.symm he, he]
        · simp only [versionsGet, if_neg hxa]
          rw [ih hrest]
          by_cases hx : x = q
          · subst hx
            simp [versionsGet, if_neg he, he]
          · simp [versionsGet, hx]

/-- A stored reference stays stored as the version index grows. -/
theorem storedRef_mono {m : List (Nat × List ShortKey)} (hs : VersionsSorted m)
    {q : Nat} {h : ShortKey} {r : BlockRef} (hr : StoredRef m r) :
    StoredRef (versionsAdd m q h) r := by
  unfold StoredRef at hr ⊢
  rw [versionsGet_versionsAdd hs q h r.1]
  by_cases hx : r.1 = q
  · rw [if_pos hx]
    cases hv : versionsGet m r.1 with
    | none => rw [hv] at hr; simp at hr
    | some vs =>
      rw [hv] at hr
      simp only [Option.getD_some] at hr
      rw [hx] at hv
      simp only [hv, Option.getD_some]
      exact mem_insertStr.mpr (Or.inr hr)
  · rw [if_neg hx]
    exact hr

/-- Stored-or-genesis is likewise monotone. -/
theorem storedOrGenesis_mono {m : List (Nat × List ShortKey)} (hs : VersionsSorted m)
    {q : Nat} {h : ShortKey} {r : BlockRef} (hr : StoredOrGenesis m r) :
    StoredOrGenesis (versionsAdd m q h) r := by
  rcases hr with hr | hr
  · exact Or.inl (storedRef_mono hs hr)
  · exact Or.inr hr

/-- Entries of `fwdAdd`: either the (possibly new) entry at the key with
the child inserted into an old (or empty) value set, or an untouched old
entry. -/
theorem mem_fwdAdd {m : List (BlockRef × List BlockRef)} {k c : BlockRef} :
    ∀ kv ∈ fwdAdd m k c,
      (∃ vs, kv = (k, insertRef c vs) ∧ (vs = [] ∨ (k, vs) ∈ m)) ∨ kv ∈ m := by
  induction m with
  | nil =>
    intro kv hkv
    simp only [fwdAdd, List.mem_singleton] at hkv
    exact Or.inl ⟨[], by simpa [insertRef] using hkv, Or.inl rfl⟩
  | cons e rest ih =>
    obtain ⟨a, vs⟩ := e
    intro kv hkv
    unfold fwdAdd at hkv
    by_cases he : k = a
    · rw [if_pos he] at hkv
      rcases List.mem_cons.mp hkv with rfl | hkv2
      · exact Or.inl ⟨vs, by rw [he], Or.inr (he ▸ List.mem_cons_self _ _)⟩
      · exact Or.inr (List.mem_cons_of_mem _ hkv2)
    · rw [if_neg he] at hkv
      by_cases hl : refLt k a
      · rw [if_pos hl] at hkv
        rcases List.mem_cons.mp hkv with rfl | hkv2
        · exact Or.inl ⟨[], by simp [insertRef], Or.inl rfl⟩
        · exact Or.inr hkv2
      · rw [if_neg hl] at hkv
        rcases List.mem_cons.mp hkv with rfl | hkv2
        · exact Or.inr (List.mem_cons_self _ _)
        · rcases ih kv hkv2 with ⟨ws, hws, hws2⟩ | h1
          · refine Or.inl ⟨ws, hws, ?_⟩
            rcases hws2 with h2 | h2
            · exact Or.inl h2
            · exact Or.inr (List.mem_cons_of_mem _ h2)
          · exact Or.inr (List.mem_cons_of_mem _ h1)

/-- The hit loop propagates a failed accumulator. -/
theorem foldl_hit_step_acc_none {fwd : List (BlockRef × List BlockRef)}
    {recur : TermCache → List BlockRef → Option (List BlockRef × TermCache)}
    {C : List BlockRef} :
    ∀ l : List BlockRef, l.foldl (Chain.hit_step fwd recur C) none = none := by
  intro l
  induction l with
  | nil => rfl
  | cons c cs ih => simpa [Chain.hit_step] using ih

/-- The terminal accumulator only grows along the hit loop. -/
theorem foldl_hit_step_mono {fwd : List (BlockRef × List BlockRef)}
    {recur : TermCache → List BlockRef → Option (List BlockRef × TermCache)}
    {C : List BlockRef} :
    ∀ (l t0 : List BlockRef) (cch0 : TermCache) (nc0 : Option (List BlockRef))
      (t1 : List BlockRef) (cch1 : TermCache) (nc1 : Option (List BlockRef)),
      l.foldl (Chain.hit_step fwd recur C) (some (t0, cch0, nc0)) =
        some (t1, cch1, nc1) →
      ∀ x ∈ t0, x ∈ t1 := by
  intro l
  induction l with
  | nil =>
    intro t0 cch0 nc0 t1 cch1 nc1 hfold x hx
    have := Option.some.inj hfold
    have ht : t0 = t1 := congrArg (fun p => p.1) this
    exact ht ▸ hx
  | cons c cs ih =>
    intro t0 cch0 nc0 t1 cch1 nc1 hfold x hx
    rw [List.foldl_cons] at hfold
    cases hnx : Chain.get_next_link fwd c with
    | none =>
      have hstep : Chain.hit_step fwd recur C (some (t0, cch0, nc0)) c =
          some (unionRefs t0 C, cch0, nc0) := by
        simp [Chain.hit_step, hnx]
      rw [hstep] at hfold
      exact ih _ _ _ _ _ _ hfold x (mem_unionRefs.mpr (Or.inl hx))
    | some term_next =>
      cases hr : recur cch0 term_next with
      | none =>
        have hstep : Chain.hit_step fwd recur C (some (t0, cch0, nc0)) c = none := by
          simp [Chain.hit_step, hnx, hr]
        rw [hstep, foldl_hit_step_acc_none] at hfold
        simp at hfold
      | some pr =>
        obtain ⟨nv, cch2⟩ := pr
        have hstep : Chain.hit_step fwd recur C (some (t0, cch0, nc0)) c =
            some (unionRefs t0 nv, cch2, some (unionRefs (nc0.getD []) nv)) := by
          simp [Chain.hit_step, hnx, hr]
        rw [hstep] at hfold
        exact ih _ _ _ _ _ _ hfold x (mem_unionRefs.mpr (Or.inl hx))

/-- The hit loop preserves an arbitrary element-wise predicate on the
accumulated terminal set, the cache, and the fresh-entry accumulator,
assuming the cached set, the forward sets, and the recursive traversal
all deliver elements satisfying it. -/
theorem foldl_hit_step_pred {fwd : List (BlockRef × List BlockRef)}
    {recur : TermCache → List BlockRef → Option (List BlockRef × TermCache)}
    {C : List BlockRef} {P : BlockRef → Prop}
    (hC : ∀ x ∈ C, P x)
    (hnext : ∀ (r : BlockRef) (V : List BlockRef),
      Chain.get_next_link fwd r = some V → ∀ x ∈ V, P x)
    (hrec : ∀ cch cur t1 c1, (∀ kv ∈ cch, ∀ v ∈ kv.2, P v) → (∀ x ∈ cur, P x) →
      recur cch cur = some (t1, c1) →
      (∀ x ∈ t1, P x) ∧ (∀ kv ∈ c1, ∀ v ∈ kv.2, P v)) :
    ∀ (l t0 : List BlockRef) (cch0 : TermCache) (nc0 : Option (List BlockRef)),
      (∀ x ∈ t0, P x) → (∀ kv ∈ cch0, ∀ v ∈ kv.2, P v) →
      (∀ v, nc0 = some v → ∀ x ∈ v, P x) →
      ∀ (t1 : List BlockRef) (cch1 : TermCache) (nc1 : Option (List BlockRef)),
      l.foldl (Chain.hit_step fwd recur C) (some (t0, cch0, nc0)) =
        some (t1, cch1, nc1) →
      (∀ x ∈ t1, P x) ∧ (∀ kv ∈ cch1, ∀ v ∈ kv.2, P v) ∧
        (∀ v, nc1 = some v → ∀ x ∈ v, P x) := by
  intro l
  induction l with
  | nil =>
    intro t0 cch0 nc0 ht0 hc0 hn0 t1 cch1 nc1 hfold
    have heq := Option.some.inj hfold
    have ht : t0 = t1 := congrArg (fun p => p.1) heq
    have hc : cch0 = cch1 := congrArg (fun p => p.2.1) heq
    have hn : nc0 = nc1 := congrArg (fun p => p.2.2) heq
    exact ⟨ht ▸ ht0, hc ▸ hc0, hn ▸ hn0⟩
  | cons c cs ih =>
    intro t0 cch0 nc0 ht0 hc0 hn0 t1 cch1 nc1 hfold
    rw [List.foldl_cons] at hfold
    cases hnx : Chain.get_next_link fwd c with
    | none =>
      have hstep : Chain.hit_step fwd recur C (some (t0, cch0, nc0)) c =
          some (unionRefs t0 C, cch0, nc0) := by
        simp [Chain.hit_step, hnx]
      rw [hstep] at hfold
      refine ih _ _ _ ?_ hc0 hn0 _ _ _ hfold
      intro x hx
      rcases mem_unionRefs.mp hx with h1 | h2
      · exact ht0 x h1
      · exact hC x h2
    | some term_next =>
      cases hr : recur cch0 term_next with
      | none =>
        have hstep : Chain.hit_step fwd recur C (some (t0, cch0, nc0)) c = none := by
          simp [Chain.hit_step, hnx, hr]
        rw [hstep, foldl_hit_step_acc_none] at hfold
        simp at hfold
      | some pr =>
        obtain ⟨nv, cch2⟩ := pr
        have hstep : Chain.hit_step fwd recur C (some (t0, cch0, nc0)) c =
            some (unionRefs t0 nv, cch2, some (unionRefs (nc0.getD []) nv)) := by
          simp [Chain.hit_step, hnx, hr]
        rw [hstep] at hfold
        obtain ⟨hnv, hc2⟩ := hrec cch0 term_next nv cch2 hc0 (hnext c term_next hnx) hr
        refine ih _ _ _ ?_ hc2 ?_ _ _ _ hfold
        · intro x hx
          rcases mem_unionRefs.mp hx with h1 | h2
          · exact ht0 x h1
          · exact hnv x h2
        · intro v hv x hx
          obtain rfl := Option.some.inj hv
          rcases mem_unionRefs.mp hx with h1 | h2
          · cases hnc : nc0 with
            | none =>
              rw [hnc] at h1
              simp at h1
            | some w =>
              rw [hnc] at h1
              simp only [Option.getD_some] at h1
              exact hn0 w hnc x h1
          · exact hnv x h2

/-- The traversal only produces references satisfying a predicate `P`
that holds of the inputs, the cache contents, and every recorded forward
child; the cache keeps satisfying `P`. -/
theorem calc_terminal_pred {cap : Nat} {fwd : List (BlockRef × List BlockRef)}
    {P : BlockRef → Prop}
    (hnext : ∀ (r : BlockRef) (V : List BlockRef),
      Chain.get_next_link fwd r = some V → ∀ x ∈ V, P x) :
    ∀ (fuel : Nat) (cache : TermCache) (cur t : List BlockRef) (c' : TermCache),
      (∀ kv ∈ cache, ∀ v ∈ kv.2, P v) → (∀ x ∈ cur, P x) →
      Chain.calc_terminal cap fwd fuel cache cur = some (t, c') →
      (∀ x ∈ t, P x) ∧ (∀ kv ∈ c', ∀ v ∈ kv.2, P v) := by
  intro fuel
  induction fuel with
  | zero => intro cache cur t c' _ _ h; simp [Chain.calc_terminal] at h
  | succ fuel ih =>
    intro cache cur t c' hcache hcur h
    cases cur with
    | nil =>
      unfold Chain.calc_terminal at h
      obtain ⟨rfl, rfl⟩ := Prod.mk.inj (Option.some.inj h)
      exact ⟨fun x hx => absurd hx (List.not_mem_nil x), hcache⟩
    | cons blk rest =>
      have hblk : P blk := hcur blk (List.mem_cons_self _ _)
      have hrest : ∀ x ∈ rest, P x := fun x hx => hcur x (List.mem_cons_of_mem _ hx)
      unfold Chain.calc_terminal at h
      cases hnx : Chain.get_next_link fwd blk with
      | none =>
        simp only [hnx] at h
        cases hr : Chain.calc_terminal cap fwd fuel cache rest with
        | none => rw [hr] at h; simp at h
        | some pr =>
          rw [hr] at h
          obtain ⟨t2, c2⟩ := pr
          simp only [Option.bind_eq_bind, Option.some_bind, Option.some.injEq] at h
          obtain ⟨rfl, rfl⟩ := Prod.mk.inj h
          obtain ⟨ht2, hc2⟩ := ih cache rest t2 c2 hcache hrest hr
          refine ⟨fun x hx => ?_, hc2⟩
          rcases mem_insertRef.mp hx with rfl | hx2
          · exact hblk
          · exact ht2 x hx2
      | some next_blk =>
        cases hlg : lruGet cache blk with
        | mk o c1 =>
          have hc1 : ∀ kv ∈ c1, ∀ v ∈ kv.2, P v := fun kv hkv v hv =>
            hcache kv (mem_lruGet_cache hlg hkv) v hv
          cases o with
          | none =>
            simp only [hnx, hlg] at h
            cases hr1 : Chain.calc_terminal cap fwd fuel c1 next_blk with
            | none => rw [hr1] at h; simp at h
            | some pr1 =>
              rw [hr1] at h
              obtain ⟨new_term, c2⟩ := pr1
              simp only [Option.bind_eq_bind, Option.some_bind] at h
              obtain ⟨hnt, hc2⟩ := ih c1 next_blk new_term c2 hc1
                (hnext blk next_blk hnx) hr1
              have hc3 : ∀ kv ∈ lruPut cap c2 blk new_term, ∀ v ∈ kv.2, P v := by
                intro kv hkv v hv
                rcases mem_lruPut hkv with rfl | hkv2
                · exact hnt v hv
                · exact hc2 kv hkv2 v hv
              cases hr2 : Chain.calc_terminal cap fwd fuel
                  (lruPut cap c2 blk new_term) rest with
              | none => rw [hr2] at h; simp at h
              | some pr2 =>
                rw [hr2] at h
                obtain ⟨t2, c4⟩ := pr2
                simp only [Option.bind_eq_bind, Option.some_bind, Option.some.injEq] at h
                obtain ⟨rfl, rfl⟩ := Prod.mk.inj h
                obtain ⟨ht2, hc4⟩ := ih _ rest t2 c4 hc3 hrest hr2
                refine ⟨fun x hx => ?_, hc4⟩
                rcases mem_unionRefs.mp hx with h1 | h2
                · exact hnt x h1
                · exact ht2 x h2
          | some cached_next =>
            simp only [hnx, hlg] at h
            have hCmem : (blk, cached_next) ∈ cache := by
              unfold lruGet at hlg
              cases hf : cacheFind cache blk with
              | none => rw [hf] at hlg; simp at hlg
              | some v =>
                rw [hf] at hlg
                obtain ⟨ho, -⟩ := Prod.mk.inj hlg
                obtain rfl := Option.some.inj ho
                exact cacheFind_mem hf
            have hCP : ∀ x ∈ cached_next, P x := fun x hx => hcache _ hCmem x hx
            by_cases hemp : cached_next = []
            · rw [if_pos hemp] at h
              cases hr1 : Chain.calc_terminal cap fwd fuel c1 next_blk with
              | none => rw [hr1] at h; simp at h
              | some pr1 =>
                rw [hr1] at h
                obtain ⟨new_term, c2⟩ := pr1
                simp only [Option.bind_eq_bind, Option.some_bind] at h
                obtain ⟨hnt, hc2⟩ := ih c1 next_blk new_term c2 hc1
                  (hnext blk next_blk hnx) hr1
                have hc3 : ∀ kv ∈ lruPut cap c2 blk new_term, ∀ v ∈ kv.2, P v := by
                  intro kv hkv v hv
                  rcases mem_lruPut hkv with rfl | hkv2
                  · exact hnt v hv
                  · exact hc2 kv hkv2 v hv
                cases hr2 : Chain.calc_terminal cap fwd fuel
                    (lruPut cap c2 blk new_term) rest with
                | none => rw [hr2] at h; simp at h
                | some pr2 =>
                  rw [hr2] at h
                  obtain ⟨t2, c4⟩ := pr2
                  simp only [Option.bind_eq_bind, Option.some_bind,
                    Option.some.injEq] at h
                  obtain ⟨rfl, rfl⟩ := Prod.mk.inj h
                  obtain ⟨ht2, hc4⟩ := ih _ rest t2 c4 hc3 hrest hr2
                  refine ⟨fun x hx => ?_, hc4⟩
                  rcases mem_unionRefs.mp hx with h1 | h2
                  · exact hnt x h1
                  · exact ht2 x h2
            · rw [if_neg hemp] at h
              cases hfold : cached_next.foldl
                  (Chain.hit_step fwd
                    (fun cch cur => Chain.calc_terminal cap fwd fuel cch cur) cached_next)
                  (some ([], c1, none)) with
              | none => rw [hfold] at h; simp at h
              | some tri =>
                rw [hfold] at h
                obtain ⟨t1, c2, new_cache⟩ := tri
                simp only [Option.bind_eq_bind, Option.some_bind] at h
                obtain ⟨ht1, hc2, hnc⟩ := foldl_hit_step_pred hCP hnext
                  (fun cch cur t1 c1 hc hcu hr => ih cch cur t1 c1 hc hcu hr)
                  cached_next [] c1 none
                  (fun x hx => absurd hx (List.not_mem_nil x)) hc1
                  (fun v hv => by simp at hv) t1 c2 new_cache hfold
                have hc3 : ∀ kv ∈ (match new_cache with
                    | some nc => if nc = [] then c2 else lruPut cap c2 blk nc
                    | none => c2), ∀ v ∈ kv.2, P v := by
                  cases hncc : new_cache with
                  | none => exact hc2
                  | some nc =>
                    by_cases hnce : nc = []
                    · simp only [hnce, if_pos rfl]
                      exact hc2
                    · simp only [if_neg hnce]
                      intro kv hkv v hv
                      rcases mem_lruPut hkv with rfl | hkv2
                      · exact hnc nc hncc v hv
                      · exact hc2 kv hkv2 v hv
                cases hr2 : Chain.calc_terminal cap fwd fuel
                    (match new_cache with
                      | some nc => if nc = [] then c2 else lruPut cap c2 blk nc
                      | none => c2) rest with
                | none => rw [hr2] at h; simp at h
                | some pr2 =>
                  rw [hr2] at h
                  obtain ⟨t2, c4⟩ := pr2
                  simp only [Option.bind_eq_bind, Option.some_bind,
                    Option.some.injEq] at h
                  obtain ⟨rfl, rfl⟩ := Prod.mk.inj h
                  obtain ⟨ht2, hc4⟩ := ih _ rest t2 c4 hc3 hrest hr2
                  refine ⟨fun x hx => ?_, hc4⟩
                  rcases mem_unionRefs.mp hx with h1 | h2
                  · exact ht1 x h1
                  · exact ht2 x h2

/-- Starting nonempty, the hit loop returns a nonempty terminal set when
the cached set is nonempty and the recursive traversal maps nonempty
inputs to nonempty outputs. -/
theorem foldl_hit_step_ne {fwd : List (BlockRef × List BlockRef)}
    {recur : TermCache → List BlockRef → Option (List BlockRef × TermCache)}
    {C : List BlockRef} (hCne : C ≠ [])
    (hrecne : ∀ cch cur t1 c1, recur cch cur = some (t1, c1) → cur ≠ [] → t1 ≠ []) :
    ∀ (l : List BlockRef) (cch0 : TermCache)
      (t1 : List BlockRef) (cch1 : TermCache) (nc1 : Option (List BlockRef)),
      l ≠ [] →
      l.foldl (Chain.hit_step fwd recur C) (some ([], cch0, none)) =
        some (t1, cch1, nc1) →
      t1 ≠ [] := by
  intro l cch0 t1 cch1 nc1 hl hfold
  cases l with
  | nil => exact absurd rfl hl
  | cons c cs =>
    rw [List.foldl_cons] at hfold
    cases hnx : Chain.get_next_link fwd c with
    | none =>
      have hstep : Chain.hit_step fwd recur C (some ([], cch0, none)) c =
          some (unionRefs [] C, cch0, none) := by
        simp [Chain.hit_step, hnx]
      rw [hstep] at hfold
      obtain ⟨w, hw⟩ := List.exists_mem_of_ne_nil C hCne
      have : w ∈ t1 :=
        foldl_hit_step_mono cs _ _ _ _ _ _ hfold w (mem_unionRefs.mpr (Or.inr hw))
      exact List.ne_nil_of_mem this
    | some term_next =>
      cases hr : recur cch0 term_next with
      | none =>
        have hstep : Chain.hit_step fwd recur C (some ([], cch0, none)) c = none := by
          simp [Chain.hit_step, hnx, hr]
        rw [hstep, foldl_hit_step_acc_none] at hfold
        simp at hfold
      | some pr =>
        obtain ⟨nv, cch2⟩ := pr
        have hstep : Chain.hit_step fwd recur C (some ([], cch0, none)) c =
            some (unionRefs [] nv, cch2, some (unionRefs (Option.getD none []) nv)) := by
          simp [Chain.hit_step, hnx, hr]
        rw [hstep] at hfold
        have hnvne : nv ≠ [] := hrecne cch0 term_next nv cch2 hr (get_next_link_mem hnx).2
        obtain ⟨w, hw⟩ := List.exists_mem_of_ne_nil nv hnvne
        have : w ∈ t1 :=
          foldl_hit_step_mono cs _ _ _ _ _ _ hfold w (mem_unionRefs.mpr (Or.inr hw))
        exact List.ne_nil_of_mem this

/-- A traversal of a nonempty start set returns a nonempty terminal
set. -/
theorem calc_terminal_ne_nil {cap : Nat} {fwd : List (BlockRef × List BlockRef)} :
    ∀ (fuel : Nat) (cache : TermCache) (cur t : List BlockRef) (c' : TermCache),
      Chain.calc_terminal cap fwd fuel cache cur = some (t, c') → cur ≠ [] → t ≠ [] := by
  intro fuel
  induction fuel with
  | zero => intro cache cur t c' h _; simp [Chain.calc_terminal] at h
  | succ fuel ih =>
    intro cache cur t c' h hcur
    cases cur with
    | nil => exact absurd rfl hcur
    | cons blk rest =>
      unfold Chain.calc_terminal at h
      cases hnx : Chain.get_next_link fwd blk with
      | none =>
        simp only [hnx] at h
        cases hr : Chain.calc_terminal cap fwd fuel cache rest with
        | none => rw [hr] at h; simp at h
        | some pr =>
          rw [hr] at h
          obtain ⟨t2, c2⟩ := pr
          simp only [Option.bind_eq_bind, Option.some_bind, Option.some.injEq] at h
          obtain ⟨rfl, rfl⟩ := Prod.mk.inj h
          exact List.ne_nil_of_mem (mem_insertRef.mpr (Or.inl rfl))
      | some next_blk =>
        cases hlg : lruGet cache blk with
        | mk o c1 =>
          cases o with
          | none =>
            simp only [hnx, hlg] at h
            cases hr1 : Chain.calc_terminal cap fwd fuel c1 next_blk with
            | none => rw [hr1] at h; simp at h
            | some pr1 =>
              rw [hr1] at h
              obtain ⟨new_term, c2⟩ := pr1
              simp only [Option.bind_eq_bind, Option.some_bind] at h
              cases hr2 : Chain.calc_terminal cap fwd fuel
                  (lruPut cap c2 blk new_term) rest with
              | none => rw [hr2] at h; simp at h
              | some pr2 =>
                rw [hr2] at h
                obtain ⟨t2, c4⟩ := pr2
                simp only [Option.bind_eq_bind, Option.some_bind, Option.some.injEq] at h
                obtain ⟨rfl, rfl⟩ := Prod.mk.inj h
                have hne := ih c1 next_blk new_term c2 hr1 (get_next_link_mem hnx).2
                obtain ⟨w, hw⟩ := List.exists_mem_of_ne_nil new_term hne
                exact List.ne_nil_of_mem (mem_unionRefs.mpr (Or.inl hw))
          | some cached_next =>
            simp only [hnx, hlg] at h
            by_cases hemp : cached_next = []
            · rw [if_pos hemp] at h
              cases hr1 : Chain.calc_terminal cap fwd fuel c1 next_blk with
              | none => rw [hr1] at h; simp at h
              | some pr1 =>
                rw [hr1] at h
                obtain ⟨new_term, c2⟩ := pr1
                simp only [Option.bind_eq_bind, Option.some_bind] at h
                cases hr2 : Chain.calc_terminal cap fwd fuel
                    (lruPut cap c2 blk new_term) rest with
                | none => rw [hr2] at h; simp at h
                | some pr2 =>
                  rw [hr2] at h
                  obtain ⟨t2, c4⟩ := pr2
                  simp only [Option.bind_eq_bind, Option.some_bind,
                    Option.some.injEq] at h
                  obtain ⟨rfl, rfl⟩ := Prod.mk.inj h
                  have hne := ih c1 next_blk new_term c2 hr1 (get_next_link_mem hnx).2
                  obtain ⟨w, hw⟩ := List.exists_mem_of_ne_nil new_term hne
                  exact List.ne_nil_of_mem (mem_unionRefs.mpr (Or.inl hw))
            · rw [if_neg hemp] at h
              cases hfold : cached_next.foldl
                  (Chain.hit_step fwd
                    (fun cch cur => Chain.calc_terminal cap fwd fuel cch cur) cached_next)
                  (some ([], c1, none)) with
              | none => rw [hfold] at h; simp at h
              | some tri =>
                rw [hfold] at h
                obtain ⟨t1, c2, new_cache⟩ := tri
                simp only [Option.bind_eq_bind, Option.some_bind] at h
                have ht1ne : t1 ≠ [] :=
                  foldl_hit_step_ne hemp
                    (fun cch cur t1x c1x hr hcu => ih cch cur t1x c1x hr hcu)
                    cached_next c1 t1 c2 new_cache hemp hfold
                rw [← Option.bind_eq_bind] at h
                obtain ⟨pr2, hcalc, h2⟩ := Option.bind_eq_some.mp h
                obtain ⟨t2, c4⟩ := pr2
                simp only [Option.some.injEq] at h2
                obtain ⟨rfl, rfl⟩ := Prod.mk.inj h2
                obtain ⟨w, hw⟩ := List.exists_mem_of_ne_nil t1 ht1ne
                exact List.ne_nil_of_mem (mem_unionRefs.mpr (Or.inl hw))

/-- A list filters to `[]` when the predicate fails everywhere. -/
theorem filter_eq_nil_of {α : Type} {p : α → Bool} {l : List α}
    (h : ∀ a ∈ l, p a = false) : l.filter p = [] := by
  induction l with
  | nil => rfl
  | cons a as ih =>
    rw [List.filter_cons_of_neg]
    · exact ih fun x hx => h x (List.mem_cons_of_mem _ hx)
    · simp [h a (List.mem_cons_self _ _)]

/-- A successful `_update_terminal` call decomposed into its two
traversals and the resulting `terminal`/`term_cache` fields. -/
theorem update_terminal_eq {s : ChainState} {fuel q : Nat} {hh : ShortKey}
    {s' : ChainState} (h : Chain.update_terminal s fuel q hh = some s') :
    ∃ t1 c1 t2 c2,
      Chain.calc_terminal s.cache_num s.forward_pointers fuel s.term_cache [(q, hh)] =
        some (t1, c1) ∧
      Chain.calc_terminal s.cache_num s.forward_pointers fuel c1 s.terminal =
        some (t2, c2) ∧
      s'.terminal = sortRefs (unionRefs t1 t2) ∧ s'.term_cache = c2 := by
  unfold Chain.update_terminal at h
  simp only at h
  cases h1 : Chain.calc_terminal s.cache_num s.forward_pointers fuel s.term_cache
      [(q, hh)] with
  | none => rw [h1] at h; simp at h
  | some p1 =>
    rw [h1] at h
    obtain ⟨t1, c1⟩ := p1
    simp only [Option.bind_eq_bind, Option.some_bind] at h
    cases h2 : Chain.calc_terminal s.cache_num s.forward_pointers fuel c1 s.terminal with
    | none => rw [h2] at h; simp at h
    | some p2 =>
      rw [h2] at h
      obtain ⟨t2, c2⟩ := p2
      simp only [Option.bind_eq_bind, Option.some_bind, Option.some.injEq] at h
      subst h
      exact ⟨t1, c1, t2, c2, rfl, h2, rfl, rfl⟩

/-- Folding `fwdAdd` over any list of parent links preserves `FwdOK`,
provided the inserted child is stored. -/
theorem fwdOK_foldl {versions : List (Nat × List ShortKey)} {child : BlockRef}
    (hchild : StoredRef versions child) :
    ∀ (links : List BlockRef) (m : List (BlockRef × List BlockRef)),
      FwdOK versions m →
      FwdOK versions (links.foldl (fun f l => fwdAdd f l child) m) := by
  intro links
  induction links with
  | nil => intro m hm; exact hm
  | cons l ls ih =>
    intro m hm
    simp only [List.foldl_cons]
    apply ih
    intro kv hkv v hv
    rcases mem_fwdAdd kv hkv with ⟨vs, rfl, hvs⟩ | hold
    · rcases mem_insertRef.mp hv with rfl | hv2
      · exact hchild
      · rcases hvs with rfl | hvs2
        · exact absurd hv2 (List.not_mem_nil v)
        · exact hm (l, vs) hvs2 v hv2
    · exact hm kv hold v hv

/-- `_update_terminal` keeps the cache and terminal sets inside the
stored-or-genesis universe and returns a non-empty terminal, whenever its
input state does. -/
theorem update_terminal_inv {s : ChainState} {fuel q : Nat} {hh : ShortKey}
    {s' : ChainState} (h : Chain.update_terminal s fuel q hh = some s')
    (hfwd : FwdOK s.versions s.forward_pointers)
    (hcache : CacheOK s.versions s.term_cache)
    (hterm : TerminalOK s)
    (hq : StoredRef s.versions (q, hh)) :
    CacheOK s'.versions s'.term_cache ∧ TerminalOK s' ∧ s'.terminal ≠ [] := by
  obtain ⟨t1, c1, t2, c2, h1, h2, hterm', hcache'⟩ := update_terminal_eq h
  have hfr := update_terminal_frame h
  have hnext : ∀ (r : BlockRef) (V : List BlockRef),
      Chain.get_next_link s.forward_pointers r = some V →
      ∀ x ∈ V, StoredOrGenesis s.versions x := by
    intro r V hV x hx
    obtain ⟨hmem, -⟩ := get_next_link_mem hV
    exact Or.inl (hfwd (r, V) hmem x hx)
  have hcur1 : ∀ x ∈ [(q, hh)], StoredOrGenesis s.versions x := by
    intro x hx
    rw [List.mem_singleton] at hx
    subst hx
    exact Or.inl hq
  obtain ⟨ht1, hc1⟩ :=
    calc_terminal_pred hnext fuel s.term_cache [(q, hh)] t1 c1 hcache hcur1 h1
  obtain ⟨ht2, hc2⟩ :=
    calc_terminal_pred hnext fuel c1 s.terminal t2 c2 hc1 hterm h2
  refine ⟨?_, ?_, ?_⟩
  · rw [hfr.1, hcache']
    exact hc2
  · intro r hrm
    rw [hterm'] at hrm
    rw [hfr.1]
    rcases mem_unionRefs.mp (mem_sortRefs.mp hrm) with hx | hx
    · exact ht1 r hx
    · exact ht2 r hx
  · rw [hterm']
    have ht1ne : t1 ≠ [] :=
      calc_terminal_ne_nil fuel s.term_cache [(q, hh)] t1 c1 h1
        (List.cons_ne_nil _ _)
    obtain ⟨w, hw⟩ := List.exists_mem_of_ne_nil t1 ht1ne
    exact List.ne_nil_of_mem (mem_sortRefs.mpr (mem_unionRefs.mpr (Or.inl hw)))

/-- A successful `add_block` pipeline (spelled out over its intermediate
states) preserves the structural invariant bundle. -/
theorem add_block_inv_aux {fuel q : Nat} {hh : ShortKey} {links : List BlockRef}
    {s s' : ChainState}
    (h : Chain.update_terminal
      (Chain.update_inconsistencies
        (Chain.update_holes
          (Chain.update_forward_pointers (Chain.update_versions s q hh) links q hh)
          q links)
        links q hh)
      fuel q hh = some s')
    (hinv : ChainInv s) : ChainInv s' := by
  obtain ⟨hsort, hfwd, hcache, hterm, htne, hmax⟩ := hinv
  have hvs : VersionsSorted (versionsAdd s.versions q hh) := versionsAdd_sorted q hh hsort
  have hqstored : StoredRef (versionsAdd s.versions q hh) (q, hh) := by
    show hh ∈ (versionsGet (versionsAdd s.versions q hh) q).getD []
    rw [versionsGet_versionsAdd hsort q hh q, if_pos rfl]
    simp only [Option.getD_some]
    exact mem_insertStr.mpr (Or.inl rfl)
  have hfwd4 : FwdOK (versionsAdd s.versions q hh)
      (links.foldl (fun f l => fwdAdd f l (q, hh)) s.forward_pointers) :=
    fwdOK_foldl hqstored links s.forward_pointers
      (fun kv hkv v hv => storedRef_mono hsort (hfwd kv hkv v hv))
  have hcache4 : CacheOK (versionsAdd s.versions q hh) s.term_cache :=
    fun kv hkv v hv => storedOrGenesis_mono hsort (hcache kv hkv v hv)
  have hterm4 : ∀ r ∈ s.terminal, StoredOrGenesis (versionsAdd s.versions q hh) r :=
    fun r hrr => storedOrGenesis_mono hsort (hterm r hrr)
  have hfr := update_terminal_frame h
  obtain ⟨hc', ht', hn'⟩ := update_terminal_inv h hfwd4 hcache4 hterm4 hqstored
  refine ⟨?_, ?_, hc', ht', hn', ?_⟩
  · rw [hfr.1]
    exact hvs
  · rw [hfr.1, hfr.2.1]
    exact hfwd4
  · intro x hx
    rw [hfr.1] at hx
    rw [hfr.2.2.2.2.1]
    have hx2 : versionsMem (versionsAdd s.versions q hh) x = true := hx
    rw [versionsMem_versionsAdd] at hx2
    simp only [Bool.or_eq_true, decide_eq_true_eq] at hx2
    show x ≤ (if (!versionsMem s.versions q) && decide (s.max_known_seq_num < q)
        then q else s.max_known_seq_num)
    by_cases hcnd : ((!versionsMem s.versions q) && decide (s.max_known_seq_num < q)) = true
    · rw [if_pos hcnd]
      simp only [Bool.and_eq_true, Bool.not_eq_true', decide_eq_true_eq] at hcnd
      rcases hx2 with rfl | hx3
      · exact le_refl x
      · have := hmax x hx3
        omega
    · rw [if_neg hcnd]
      rcases hx2 with rfl | hx3
      · simp only [Bool.and_eq_true, Bool.not_eq_true', decide_eq_true_eq, not_and] at hcnd
        by_cases hm : versionsMem s.versions x = true
        · exact hmax x hm
        · have h9 : versionsMem s.versions x = false := by
            cases hb : versionsMem s.versions x with
            | false => rfl
            | true => exact absurd hb hm
          have := hcnd h9
          omega
      · exact hmax x hx3

/-- A successful `add_block` call preserves the structural invariant
bundle. -/
theorem add_block_inv {fuel : Nat} {s : ChainState} {b : PlexusBlock} {s' : ChainState}
    (h : Chain.add_block fuel s b = some s') (hinv : ChainInv s) : ChainInv s' :=
  add_block_inv_aux h hinv

/-- Every reachable chain state satisfies the structural invariant
bundle: sorted version keys, stored forward pointers, stored-or-genesis
cache entries and terminal refs, a non-empty terminal, and version keys
bounded by `max_known_seq_num`. -/
theorem reachable_inv (s : ChainState) (hr : Reachable s) : ChainInv s := by
  induction hr with
  | init p c =>
    refine ⟨?_, ?_, ?_, ?_, ?_, ?_⟩
    · simp [Chain.init, VersionsSorted]
    · intro kv hkv
      simp [Chain.init] at hkv
    · intro kv hkv
      simp [Chain.init] at hkv
    · intro r hrr
      simp only [Chain.init, List.mem_singleton] at hrr
      exact Or.inr hrr
    · simp [Chain.init]
    · intro x hx
      simp [Chain.init, versionsMem, versionsGet] at hx
  | step fuel hprev hadd ih =>
    exact add_block_inv hadd ih

/-- C2: reconcile self-symmetry, amended.  The claim asserts
`reconcile(self.frontier()) = FrontierDiff(empty, empty)` for every
reachable state, including states with tracked inconsistencies; the
counterexample `c2_counterexample` refutes it in that generality (the
escalation loop turns a local inconsistency into a conflict against the
view's own terminal).  The property does hold for every reachable state
whose inconsistency set is empty and which stores no block at height 0:
self-reconciliation then returns the empty diff and leaves the state
unchanged. -/
theorem c2_self_reconcile (fuel : Nat) (s : ChainState) (hr : Reachable s)
    (hinc : s.inconsistencies = []) (h0 : versionsMem s.versions 0 = false) :
    Chain.reconcile fuel s (Chain.frontier s) = some (⟨[], []⟩, s) := by
  obtain ⟨hsort, hfwd, hcache, hterm, htne, hmax⟩ := reachable_inv s hr
  obtain ⟨mx, hmx⟩ : ∃ mx, Chain.maxLink (Chain.frontier s).terminal = some mx := by
    show ∃ mx, Chain.maxLink s.terminal = some mx
    cases hft : s.terminal with
    | nil => exact absurd hft htne
    | cons r rs => exact ⟨_, by rw [Chain.maxLink]⟩
  have hmxmem : mx ∈ s.terminal := maxLink_mem hmx
  have hmx1 : mx.1 ≤ s.max_known_seq_num := by
    rcases hterm mx hmxmem with hst | hgen
    · have hmem : versionsMem s.versions mx.1 = true := by
        unfold StoredRef at hst
        cases hv : versionsGet s.versions mx.1 with
        | none => rw [hv] at hst; simp at hst
        | some vs => simp [versionsMem, hv]
      exact hmax mx.1 hmem
    · rw [hgen]
      exact Nat.zero_le _
  have hX : ((expand_ranges [(1, mx.1)]).filter
      (fun x => decide (x ∉ expand_ranges (Chain.frontier s).holes))).filter
      (fun x => decide (x ∉ (expand_ranges [(1, s.max_known_seq_num)]).filter
        (fun x => decide (x ∉ s.holes)))) = [] := by
    apply filter_eq_nil_of
    intro a ha
    simp only [List.mem_filter, decide_eq_true_eq, expand_ranges, List.append_nil,
      mem_rangeClosed] at ha
    obtain ⟨⟨ha1, ha2⟩, ha3⟩ := ha
    have ha4 : a ∉ s.holes := by
      intro hcon
      exact ha3 ((mem_expand_ranges_ranges s.holes).mpr hcon)
    have hmem : a ∈ (expand_ranges [(1, s.max_known_seq_num)]).filter
        (fun x => decide (x ∉ s.holes)) := by
      rw [List.mem_filter]
      refine ⟨?_, by simpa using ha4⟩
      simp only [expand_ranges, List.append_nil, mem_rangeClosed]
      omega
    simp only [decide_eq_false_iff_not, not_not]
    exact hmem
  have hY : (Chain.frontier s).terminal.filter (fun r =>
      match versionsGet s.versions r.1 with
      | some vs => decide (r.2 ∉ vs)
      | none => false) = [] := by
    apply filter_eq_nil_of
    intro r hrr
    have hrr2 : r ∈ s.terminal := hrr
    rcases hterm r hrr2 with hst | hgen
    · unfold StoredRef at hst
      cases hv : versionsGet s.versions r.1 with
      | none => rw [hv] at hst
      | some vs =>
        rw [hv] at hst
        simp only [Option.getD_some] at hst
        simp only [decide_eq_false_iff_not, not_not]
        exact hst
    · subst hgen
      have hv0 : versionsGet s.versions (0 : Nat) = none := by
        cases hv : versionsGet s.versions 0 with
        | none => rfl
        | some vs =>
          exfalso
          have hmem0 : versionsMem s.versions 0 = true := by simp [versionsMem, hv]
          rw [h0] at hmem0
          exact Bool.false_ne_true hmem0
      have hv0' : versionsGet s.versions genesisRef.1 = none := hv0
      simp only [hv0']
  have hrec := reconcile_closed_form fuel hmx hinc
  rw [hrec, hX, hY]
  rfl

/-- Witness for the amended C2 at the concrete reachable state of
scenario S1: self-reconciliation returns the empty diff. -/
theorem c2_witness :
    Chain.reconcile 20 chainS1 (Chain.frontier chainS1) = some (⟨[], []⟩, chainS1) := by
  have hr : Reachable chainS1 :=
    @reachable_add_all chain0 chainS1 20 [blkA, blkB2] (Reachable.init false 100000)
      (by decide)
  exact c2_self_reconcile 20 chainS1 hr (by decide) (by decide)
